import Mathlib

/-!
Shallow embedding of the hotel-booking NLP pipeline
(normalization, segmentation, entity extraction, rules engine,
business logic, orchestrator) and proofs about it.

Conventions used throughout:
* Calendar dates are represented by their rata-die day number (an `Int`,
  days since a fixed epoch).  Two valid ISO-8601 date strings are equal
  iff their day numbers are equal, `date + timedelta(days=n)` is day
  addition, and `(d2 - d1).days` is day subtraction, so this embedding
  is exact for the date arithmetic the code performs.
* Python truthiness is modelled explicitly: an optional int is truthy
  iff it is present and nonzero; a date object is always truthy, so an
  optional date is truthy iff present.
* Text is a `List Char`; Python string slicing, `strip`, `split` and
  the concrete regular expressions of the code are implemented directly
  over character lists.
* Fallible Python code (a raised `TypeError`) is embedded with `Except`.
-/

/-- Python truthiness of an optional int (`None` and `0` are falsy). -/
def pyTruthyOptInt (v : Option Int) : Bool :=
  match v with
  | none => false
  | some n => n != 0

/-- Python truthiness of an optional date (`None` falsy, any date truthy). -/
def pyTruthyOptDate (v : Option Int) : Bool :=
  v.isSome

/-- The arrival/departure/nights triple of a resolution result. -/
structure DateTriple where
  arrival_date : Option Int
  departure_date : Option Int
  nights : Option Int
deriving DecidableEq, Repr

/-- Embedding of `RulesEngine.resolve_dates` (src/pipeline/rules.py).
The Python `if arrival and nights and not departure: ...` chain is
reproduced with the truthiness helpers; the string is the
`resolution_method` value of the returned dict. -/
def resolve_dates (arrival departure nights : Option Int) : DateTriple × String :=
  if pyTruthyOptDate arrival && pyTruthyOptInt nights && !pyTruthyOptDate departure then
    let a := arrival.getD 0
    let n := nights.getD 0
    (⟨some a, some (a + n), some n⟩, "arrival_plus_nights")
  else if pyTruthyOptDate arrival && pyTruthyOptDate departure && !pyTruthyOptInt nights then
    let a := arrival.getD 0
    let d := departure.getD 0
    (⟨some a, some d, some (d - a)⟩, "date_diff")
  else if pyTruthyOptDate arrival && pyTruthyOptDate departure && pyTruthyOptInt nights then
    let a := arrival.getD 0
    let d := departure.getD 0
    let n := nights.getD 0
    let n' := if (d - a) ≠ n then d - a else n
    (⟨some a, some d, some n'⟩, "all_present_validated")
  else
    (⟨arrival, departure, nights⟩, "insufficient_data")

/-- A `DateResult` as assembled in `EntityExtractor._extract_dates`
(src/pipeline/entities.py): the three date fields plus the per-field
confidence map.  Confidences are embedded as rationals. -/
structure DateResult where
  arrival_date : Option Int
  departure_date : Option Int
  nights : Option Int
  confArrival : ℚ
  confDeparture : ℚ
  confNights : ℚ
deriving DecidableEq, Repr

/-- Embedding of `EntityExtractor._fill_missing_date_field`
(src/pipeline/entities.py).  The nights field is only computed when the
day difference is positive; when all three fields are present no branch
fires and the result is returned unchanged. -/
def fill_missing_date_field (r : DateResult) : DateResult :=
  if pyTruthyOptDate r.arrival_date && pyTruthyOptDate r.departure_date
      && !pyTruthyOptInt r.nights then
    let a := r.arrival_date.getD 0
    let d := r.departure_date.getD 0
    let nightsCalc := d - a
    if nightsCalc > 0 then
      { r with nights := some nightsCalc, confNights := 9/10 }
    else r
  else if pyTruthyOptDate r.arrival_date && pyTruthyOptInt r.nights
      && !pyTruthyOptDate r.departure_date then
    let a := r.arrival_date.getD 0
    let n := r.nights.getD 0
    { r with departure_date := some (a + n), confDeparture := 8/10 }
  else if pyTruthyOptDate r.departure_date && pyTruthyOptInt r.nights
      && !pyTruthyOptDate r.arrival_date then
    let d := r.departure_date.getD 0
    let n := r.nights.getD 0
    { r with arrival_date := some (d - n), confArrival := 8/10 }
  else r

/-- The date triple carried by a `DateResult`. -/
def DateResult.triple (r : DateResult) : DateTriple :=
  ⟨r.arrival_date, r.departure_date, r.nights⟩

/-! ### Business logic: group booking, age classification, enrichment

Python dicts holding child records are mutable and shared by reference.
The embedding makes the store of child records explicit: a heap
`List ChildRec` addressed by position, with rooms referring to their
child records by address.  `segment.copy()` is a shallow copy, so the
copy's `rooms` list and the child records behind it are the same
objects as the input's. -/

/-- The `age` key of a child record: absent, present with value `None`,
or present with an integer value. -/
inductive AgeField where
  | absent : AgeField
  | null : AgeField
  | val : Int → AgeField
deriving DecidableEq, Repr

/-- A child record: its `age` key and its (initially absent)
`classification` key. -/
structure ChildRec where
  ageField : AgeField
  classification : Option String
deriving DecidableEq, Repr

/-- A room inside a segment dict as `BusinessLogic` sees it: the
`adults` value (possibly `None`) and the addresses of its child
records in the heap. -/
structure HRoom where
  adults : Option Int
  childAddrs : List Nat
deriving DecidableEq, Repr

/-- A segment dict as passed to `BusinessLogic`: its `rooms` list. -/
structure HSegment where
  rooms : List HRoom
deriving DecidableEq, Repr

/-- Python `room.get("adults", 0) or 0`: both a missing key and a
falsy value (here `None` or `0`) collapse to `0`. -/
def pyAdultsOrZero (v : Option Int) : Int :=
  match v with
  | none => 0
  | some n => if n = 0 then 0 else n

/-- Embedding of `BusinessLogic.is_group_booking`
(src/pipeline/business_logic.py): room count is the number of room
entries, guest total sums `adults + len(children)` over the rooms. -/
def is_group_booking (room_threshold guest_threshold : Int) (segment : HSegment) : Bool :=
  let num_rooms : Int := segment.rooms.length
  let total_guests : Int :=
    segment.rooms.foldl
      (fun acc room => acc + (pyAdultsOrZero room.adults + room.childAddrs.length)) 0
  num_rooms ≥ room_threshold || total_guests ≥ guest_threshold

/-- Embedding of `BusinessLogic.classify_guest_age`
(src/pipeline/business_logic.py).  Comparing `None < threshold` raises
a `TypeError` in Python 3, embedded as an `Except.error`. -/
def classify_guest_age (threshold : Int) (age : Option Int) : Except String String :=
  match age with
  | none => .error "TypeError"
  | some a => .ok (if a < threshold then "child" else "adult")

/-- Age value carried by an `age` key that is present. -/
def AgeField.value : AgeField → Option Int
  | .absent => none
  | .null => none
  | .val n => some n

/-- One room's pass of the child-annotation loop in
`BusinessLogic.enrich_segment`: for each child record whose dict has an
`age` key, store the classification of that age into the record
(mutating the heap); a `TypeError` aborts the whole call. -/
def annotateChildren (threshold : Int) :
    List Nat → List ChildRec → Except String (List ChildRec)
  | [], heap => .ok heap
  | addr :: rest, heap =>
    match heap.get? addr with
    | none => annotateChildren threshold rest heap
    | some child =>
      match child.ageField with
      | .absent => annotateChildren threshold rest heap
      | f =>
        match classify_guest_age threshold f.value with
        | .error e => .error e
        | .ok cls =>
          annotateChildren threshold rest
            (heap.set addr { child with classification := some cls })

/-- The nested loop over all rooms of the segment. -/
def annotateRooms (threshold : Int) :
    List HRoom → List ChildRec → Except String (List ChildRec)
  | [], heap => .ok heap
  | room :: rest, heap =>
    match annotateChildren threshold room.childAddrs heap with
    | .error e => .error e
    | .ok heap' => annotateRooms threshold rest heap'

/-- The enriched segment returned by `enrich_segment`: a shallow copy
of the input dict, so its `rooms` list is the very list of the input,
plus the added `is_group_booking` key. -/
structure EnrichedSegment where
  rooms : List HRoom
  is_group_booking : Bool
deriving DecidableEq, Repr

/-- Embedding of `BusinessLogic.enrich_segment`
(src/pipeline/business_logic.py).  The returned heap is the state of
the shared child records after the call: annotation writes through the
shallow copy into the caller's records. -/
def enrich_segment (threshold room_threshold guest_threshold : Int)
    (segment : HSegment) (heap : List ChildRec) :
    Except String (EnrichedSegment × List ChildRec) :=
  let isGroup := is_group_booking room_threshold guest_threshold segment
  match annotateRooms threshold segment.rooms heap with
  | .error e => .error e
  | .ok heap' => .ok (⟨segment.rooms, isGroup⟩, heap')

/-! ### Orchestrator room assembly and group classification -/

/-- A room object assembled by `HotelEmailPipeline._assemble_rooms`
(src/pipeline/orchestrator.py): always carries `room_type`, `quantity`,
`adults`, `children` and `total_guests`. -/
structure ORoom where
  room_type : Option String
  quantity : Int
  adults : Option Int
  children : List (Option Int)
  total_guests : Option Int
deriving DecidableEq, Repr

/-- Embedding of `HotelEmailPipeline._is_group_booking`
(src/pipeline/orchestrator.py): empty room list is never a group;
otherwise room count is the sum of the quantities and the guest total
weights each room's `total_guests` by its quantity. -/
def orch_is_group_booking (min_rooms min_guests : Int) (rooms : List ORoom) : Bool :=
  if rooms.isEmpty then false
  else
    let total_rooms : Int := rooms.foldl (fun acc r => acc + r.quantity) 0
    let total_guests : Int :=
      rooms.foldl
        (fun acc r => match r.total_guests with
          | none => acc
          | some t => acc + t * r.quantity) 0
    total_rooms ≥ min_rooms || (total_guests > 0 && total_guests ≥ min_guests)

/-- Number of room entries in a list of rooms, as an integer. -/
def roomEntryCount (rooms : List ORoom) : Int := rooms.length

/-- Sum of the `quantity` fields of a list of rooms. -/
def quantitySum (rooms : List ORoom) : Int :=
  (rooms.map (fun r => r.quantity)).sum

/-- Quantity-weighted sum of the present `total_guests` fields. -/
def weightedGuestSum (rooms : List ORoom) : Int :=
  (rooms.map (fun r => match r.total_guests with
    | none => 0
    | some t => t * r.quantity)).sum

/-- Guest total as `BusinessLogic.is_group_booking` computes it:
`adults + len(children)` summed over the room entries. -/
def blGuestSum (segment : HSegment) : Int :=
  (segment.rooms.map (fun room => pyAdultsOrZero room.adults + room.childAddrs.length)).sum

/-! ### Text utilities

Python strings are embedded as `List Char`.  The regular expressions the
code uses are simple enough (word alternatives with word boundaries,
digit runs, whitespace runs, literals) that each is implemented as a
direct scanner with Python `re` semantics: scanning is leftmost, greedy
quantifiers take maximal runs (exact here because no pattern can trade
characters between adjacent greedy pieces), and `finditer` resumes at
the end of each match. -/

/-- Python `\s` for the ASCII range (the texts in all concrete
statements below are ASCII). -/
def pyIsSpace (c : Char) : Bool :=
  c = ' ' || c = '\t' || c = '\n' || c = '\r' || c = '\x0b' || c = '\x0c'

/-- Python `\w` for the ASCII range: letters, digits, underscore. -/
def isWordChar (c : Char) : Bool :=
  c.isAlphanum || c = '_'

/-- Python slicing `text[a:b]` (indices already clamped like Python). -/
def sliceL (text : List Char) (a b : Nat) : List Char :=
  (text.take b).drop a

/-- Python `str.strip()`: remove whitespace from both ends. -/
def stripChars (l : List Char) : List Char :=
  ((l.dropWhile pyIsSpace).reverse.dropWhile pyIsSpace).reverse

/-- Python `str.split(sep)` for a one-character separator: splitting
the empty string yields one empty field, and every separator occurrence
opens a new field. -/
def splitNl : List Char → List (List Char)
  | [] => [[]]
  | c :: rest =>
    if c = '\n' then [] :: splitNl rest
    else
      match splitNl rest with
      | [] => [[c]]
      | line :: ls => (c :: line) :: ls

/-- Python `"\n".join(lines)`. -/
def joinNl (lines : List (List Char)) : List Char :=
  List.intercalate ['\n'] lines

/-- Lowercase a text, Python `str.lower()` for the ASCII range. -/
def lowerL (text : List Char) : List Char :=
  text.map Char.toLower

/-- Does `pat` occur in `text` starting at position `p`? -/
def listMatchAt (text : List Char) (p : Nat) (pat : List Char) : Bool :=
  (text.drop p).take pat.length == pat

/-- Word boundary of `re` before position `p`, for a pattern piece that
starts with a word character. -/
def wordBoundaryBefore (text : List Char) (p : Nat) : Bool :=
  p == 0 || !isWordChar (text.getD (p - 1) ' ')

/-- Word boundary of `re` at position `p`, for a pattern piece that
ends with a word character right before `p`. -/
def wordBoundaryAfter (text : List Char) (p : Nat) : Bool :=
  text.length ≤ p || !isWordChar (text.getD p ' ')

/-- Match of a `\b(alt1|alt2|...)\b` pattern at position `p`, where
every alternative begins and ends with a word character. -/
def matchWordAltsAt (text : List Char) (p : Nat) (alts : List (List Char)) : Bool :=
  wordBoundaryBefore text p &&
    alts.any (fun a => listMatchAt text p a && wordBoundaryAfter text (p + a.length))

/-- Python `re.search` existence for a `\b(...)\b` alternative pattern. -/
def searchWordAlts (alts : List (List Char)) (text : List Char) : Bool :=
  (List.range (text.length + 1)).any (fun p => matchWordAltsAt text p alts)

/-- Length of the maximal run of characters satisfying `pred` starting
at position `p` (a greedy `X*` / `X+` piece). -/
def runLen (pred : Char → Bool) (text : List Char) (p : Nat) : Nat :=
  ((text.drop p).takeWhile pred).length

/-- Numeric value of the digit run starting at `p` (the captured group
of a `(\d+)` piece). -/
def digitRunVal (text : List Char) (p : Nat) : Int :=
  (((text.drop p).takeWhile Char.isDigit).foldl
    (fun acc c => 10 * acc + (c.toNat - '0'.toNat)) 0 : Nat)

/-- Generic fuel-driven `re.finditer` scanner: `m pos` returns the
payload and the end position of a match starting at `pos`; scanning is
leftmost and resumes at the end of each (nonempty) match. -/
def finditerAux (m : Nat → Option (β × Nat)) (len : Nat) : Nat → Nat → List β
  | 0, _ => []
  | fuel + 1, pos =>
    if len ≤ pos then []
    else
      match m pos with
      | some (b, e) => b :: finditerAux m len fuel (max e (pos + 1))
      | none => finditerAux m len fuel (pos + 1)

/-- Python `re.finditer` over a text of length `len`. -/
def finditerL (m : Nat → Option (β × Nat)) (len : Nat) : List β :=
  finditerAux m len (len + 1) 0

/-- Python `re.search`: the leftmost position at which `m` matches,
with the match payload. -/
def searchL (m : Nat → Option β) (len : Nat) : Option β :=
  (List.range (len + 1)).findSome? m

/-! ### Calendar arithmetic

The code keeps ISO `YYYY-MM-DD` strings and converts them with
`datetime.strptime` / `strftime`; arithmetic goes through
`date + timedelta(days=n)` and `(d2 - d1).days`.  Valid ISO strings are
in bijection with rata-die day numbers, under which that arithmetic is
plain integer addition and subtraction, so dates are embedded as the
day number computed by the standard civil-to-days conversion. -/

/-- Gregorian leap year. -/
def isLeapYear (y : Int) : Bool :=
  (y % 4 == 0 && y % 100 != 0) || y % 400 == 0

/-- Days in a month of the proleptic Gregorian calendar. -/
def daysInMonth (y : Int) (m : Nat) : Nat :=
  match m with
  | 1 => 31
  | 2 => if isLeapYear y then 29 else 28
  | 3 => 31
  | 4 => 30
  | 5 => 31
  | 6 => 30
  | 7 => 31
  | 8 => 31
  | 9 => 30
  | 10 => 31
  | 11 => 30
  | 12 => 31
  | _ => 0

/-- Rata-die day number of a civil date (days since 1970-01-01,
computed with floor division, which is what `Int` division is here). -/
def daysFromCivil (y : Int) (m d : Nat) : Int :=
  let y' := if m ≤ 2 then y - 1 else y
  let era := y' / 400
  let yoe := y' - era * 400
  let mp : Int := ((m : Int) + 9) % 12
  let doy := (153 * mp + 2) / 5 + (d : Int) - 1
  let doe := yoe * 365 + yoe / 4 - yoe / 100 + doy
  era * 146097 + doe - 719468

/-! ### Date candidates (`EntityExtractor._find_date_candidates`) -/

/-- A date candidate: the resulting ISO date (as a day number), the
matched raw text, and the character position of the match. -/
structure DateCandidate where
  date : Int
  raw : List Char
  pos : Nat
deriving DecidableEq, Repr

/-- Shape match of the ISO pattern `\b(\d{4}-\d{2}-\d{2})\b` at
position `p`; returns the end of the match. -/
def matchIsoShapeAt (text : List Char) (p : Nat) : Option (((Nat × Nat) × Nat)) :=
  let digs (q n : Nat) : Bool :=
    (List.range n).all (fun i => (text.getD (q + i) ' ').isDigit)
  if wordBoundaryBefore text p && digs p 4 &&
      text.getD (p + 4) ' ' == '-' && digs (p + 5) 2 &&
      text.getD (p + 7) ' ' == '-' && digs (p + 8) 2 &&
      p + 10 ≤ text.length && wordBoundaryAfter text (p + 10) then
    some ((p, p + 10), p + 10)
  else none

/-- Digit-run numeric value of the `n` characters at position `q`
(used on slices known to be digits). -/
def fixedDigits (text : List Char) (q n : Nat) : Nat :=
  (List.range n).foldl (fun acc i => 10 * acc + ((text.getD (q + i) ' ').toNat - '0'.toNat)) 0

/-- The `datetime.strptime(s, "%Y-%m-%d")` validation and conversion
for a shape-matched ISO occurrence at `p`: `None` when the matched text
is not a real calendar date (the `except ValueError: continue` path). -/
def isoStrptime (text : List Char) (p : Nat) : Option Int :=
  let y : Int := fixedDigits text p 4
  let m := fixedDigits text (p + 5) 2
  let d := fixedDigits text (p + 8) 2
  if 1 ≤ y && 1 ≤ m && m ≤ 12 && 1 ≤ d && d ≤ daysInMonth y m then
    some (daysFromCivil y m d)
  else none

/-- Pattern 1 of `_find_date_candidates`: all ISO-shaped matches, with
the unparsable ones skipped (scanning still resumes after them). -/
def isoCandidates (text : List Char) : List DateCandidate :=
  (finditerL (matchIsoShapeAt text) text.length).filterMap
    (fun se =>
      match isoStrptime text se.1 with
      | none => none
      | some day => some ⟨day, sliceL text se.1 se.2, se.1⟩)

/-- Append a candidate only when its ISO date is not already present
(the `if not any(c['date'] == iso_date for c in candidates)` guard). -/
def addCandidateDedup (acc : List DateCandidate) (c : DateCandidate) : List DateCandidate :=
  if acc.any (fun c0 => c0.date == c.date) then acc else acc ++ [c]

/-- The weekday names of the relative pattern
`\bnext\s+(?:monday|...|sunday)\b`. -/
def weekdayNames : List (List Char) :=
  ["monday".toList, "tuesday".toList, "wednesday".toList, "thursday".toList,
   "friday".toList, "saturday".toList, "sunday".toList]

/-- Match of `\bnext\s+(?:monday|...)\b` at position `p` on the
lowercased text; returns the end of the match. -/
def matchNextWeekdayAt (textLower : List Char) (p : Nat) : Option Nat :=
  if wordBoundaryBefore textLower p && listMatchAt textLower p "next".toList then
    let q := p + 4
    let ws := runLen pyIsSpace textLower q
    if ws == 0 then none
    else
      let r := q + ws
      weekdayNames.findSome? (fun w =>
        if listMatchAt textLower r w && wordBoundaryAfter textLower (r + w.length) then
          some (r + w.length)
        else none)
  else none

/-- First match span of one relative pattern (`re.search` with
`re.IGNORECASE`, matching on the lowercased text). -/
def searchRelative (textLower : List Char) (word : Option (List Char)) : Option (Nat × Nat) :=
  match word with
  | some w =>
    searchL (fun p =>
      if matchWordAltsAt textLower p [w] then some (p, p + w.length) else none)
      textLower.length
  | none =>
    searchL (fun p => (matchNextWeekdayAt textLower p).map (fun e => (p, e)))
      textLower.length

/-- Pattern 4 of `_find_date_candidates`: the relative-date phrases, in
dictionary order, each contributing at most one candidate anchored to
the reference date, added only if its date is new. -/
def addRelativeCandidates (text : List Char) (refDate : Int)
    (acc : List DateCandidate) : List DateCandidate :=
  let textLower := lowerL text
  [(some "tonight".toList, (0 : Int)), (some "tomorrow".toList, 1), (none, 7)].foldl
    (fun acc wo =>
      match searchRelative textLower wo.1 with
      | none => acc
      | some se => addCandidateDedup acc ⟨refDate + wo.2, sliceL text se.1 se.2, se.1⟩)
    acc

/-- Relation ordering date candidates by text position (the
`candidates.sort(key=lambda x: x['position'])` at the end of
`_find_date_candidates`; Python sorting is stable, as is
`List.insertionSort`). -/
def posLe (a b : DateCandidate) : Prop := a.pos ≤ b.pos

instance : DecidableRel posLe := fun a b => Nat.decLe a.pos b.pos

instance : IsTotal DateCandidate posLe := ⟨fun a b => Nat.le_total a.pos b.pos⟩

instance : IsTrans DateCandidate posLe := ⟨fun _ _ _ => Nat.le_trans⟩

/-- Embedding of `EntityExtractor._find_date_candidates`
(src/pipeline/entities.py).  Pattern 1 (ISO dates) and pattern 4
(relative phrases) are implemented concretely.  Patterns 2
("Month D[-D], YYYY"), 2b ("Month D to Month D[, YYYY]") and 3
(slash-delimited numeric dates) parse their matched text through the
external `dateparser` library, so their candidate lists are taken as
parameters; what the function itself does with them is embedded
exactly: pattern 2 appends every candidate unconditionally, while
patterns 2b and 3 append each candidate only if its date is new. -/
def find_date_candidates (text : List Char) (refDate : Int)
    (monthDayCands monthRangeCands slashCands : List DateCandidate) :
    List DateCandidate :=
  let c1 := isoCandidates text
  let c2 := c1 ++ monthDayCands
  let c3 := monthRangeCands.foldl addCandidateDedup c2
  let c4 := slashCands.foldl addCandidateDedup c3
  let c5 := addRelativeCandidates text refDate c4
  List.insertionSort posLe c5

/-! ### Date classification (`EntityExtractor._classify_dates`) -/

/-- A classified date with its confidence. -/
structure ClassifiedDate where
  date : Int
  confidence : ℚ
deriving DecidableEq, Repr

/-- The `ARRIVAL_KEYWORDS` pattern set, each pattern expanded into its
word alternatives. -/
def arrivalKeywordPatterns : List (List (List Char)) :=
  [["arriving".toList, "arrival".toList, "arrive".toList],
   ["checkin".toList, "check-in".toList, "check in".toList],
   ["from".toList],
   ["starting".toList],
   ["beginning".toList, "begin".toList]]

/-- The `DEPARTURE_KEYWORDS` pattern set. -/
def departureKeywordPatterns : List (List (List Char)) :=
  [["departing".toList, "departure".toList, "depart".toList],
   ["checkout".toList, "check-out".toList, "check out".toList],
   ["until".toList, "til".toList],
   ["leaving".toList, "leave".toList],
   ["ending".toList]]

/-- Number of patterns of the set that match somewhere in the context
window (the `sum(1 for pattern in ... if re.search(pattern, context))`). -/
def keywordScore (patterns : List (List (List Char))) (context : List Char) : Nat :=
  patterns.countP (fun alts => searchWordAlts alts context)

/-- The ±50-character context window around a candidate, over the
lowercased text. -/
def contextWindow (textLower : List Char) (c : DateCandidate) : List Char :=
  let start := c.pos - 50
  let stop := min textLower.length (c.pos + c.raw.length + 50)
  sliceL textLower start stop

/-- Confidence formula `min(0.9, 0.5 + 0.1 * score)`. -/
def scoreConfidence (score : Nat) : ℚ :=
  min (9 / 10) (1 / 2 + (score : ℚ) / 10)

/-- The candidate loop of `_classify_dates`: context-window scoring,
with the tie case filling the first unresolved slot at confidence 0.5
(a tie with both slots taken classifies the candidate as neither). -/
def classifyDatesLoop (textLower : List Char) :
    List DateCandidate → List ClassifiedDate → List ClassifiedDate →
    List ClassifiedDate × List ClassifiedDate
  | [], arrivals, departures => (arrivals, departures)
  | c :: rest, arrivals, departures =>
    let context := contextWindow textLower c
    let arrivalScore := keywordScore arrivalKeywordPatterns context
    let departureScore := keywordScore departureKeywordPatterns context
    if arrivalScore > departureScore then
      classifyDatesLoop textLower rest
        (arrivals ++ [⟨c.date, scoreConfidence arrivalScore⟩]) departures
    else if departureScore > arrivalScore then
      classifyDatesLoop textLower rest
        arrivals (departures ++ [⟨c.date, scoreConfidence departureScore⟩])
    else if arrivals.isEmpty then
      classifyDatesLoop textLower rest (arrivals ++ [⟨c.date, 1 / 2⟩]) departures
    else if departures.isEmpty then
      classifyDatesLoop textLower rest arrivals (departures ++ [⟨c.date, 1 / 2⟩])
    else
      classifyDatesLoop textLower rest arrivals departures

/-- Relation ordering classified dates by descending confidence (the
`sort(key=..., reverse=True)`; both sorts are stable). -/
def confDesc (a b : ClassifiedDate) : Prop := b.confidence ≤ a.confidence

instance : DecidableRel confDesc := fun _ _ => inferInstanceAs (Decidable (_ ≤ _))

/-- Embedding of `EntityExtractor._classify_dates`
(src/pipeline/entities.py). -/
def classify_dates (text : List Char) (candidates : List DateCandidate) :
    List ClassifiedDate × List ClassifiedDate :=
  let textLower := lowerL text
  let (arrivals, departures) := classifyDatesLoop textLower candidates [] []
  (List.insertionSort confDesc arrivals, List.insertionSort confDesc departures)

/-! ### Night extraction (`EntityExtractor._extract_nights`) -/

/-- Match of `(\d+)[- ]nights?` at `p`: digit run, one separator, the
literal `night` (the optional `s` does not affect the captured count). -/
def matchNightsP1At (t : List Char) (p : Nat) : Option Int :=
  let dl := runLen Char.isDigit t p
  if dl == 0 then none
  else
    let q := p + dl
    let sep := t.getD q ' '
    if (sep == '-' || sep == ' ') && q < t.length && listMatchAt t (q + 1) "night".toList then
      some (digitRunVal t p)
    else none

/-- Match of `stay(?:ing)? (?:for )?(\d+) nights?` at `p`. -/
def matchNightsP2At (t : List Char) (p : Nat) : Option Int :=
  if listMatchAt t p "stay".toList then
    let q := p + 4
    let q := if listMatchAt t q "ing".toList then q + 3 else q
    if t.getD q ' ' == ' ' && q < t.length then
      let q := q + 1
      let q := if listMatchAt t q "for ".toList then q + 4 else q
      let dl := runLen Char.isDigit t q
      if dl == 0 then none
      else if t.getD (q + dl) ' ' == ' ' && q + dl < t.length &&
          listMatchAt t (q + dl + 1) "night".toList then
        some (digitRunVal t q)
      else none
    else none
  else none

/-- Match of `(\d+)[- ]night stay` at `p`. -/
def matchNightsP3At (t : List Char) (p : Nat) : Option Int :=
  let dl := runLen Char.isDigit t p
  if dl == 0 then none
  else
    let q := p + dl
    let sep := t.getD q ' '
    if (sep == '-' || sep == ' ') && q < t.length &&
        listMatchAt t (q + 1) "night stay".toList then
      some (digitRunVal t p)
    else none

/-- Embedding of `EntityExtractor._extract_nights`: the three patterns
tried in order, each by `re.search` (leftmost match), on text that is
already lowercased. -/
def extract_nights (t : List Char) : Option Int :=
  match searchL (matchNightsP1At t) t.length with
  | some n => some n
  | none =>
    match searchL (matchNightsP2At t) t.length with
    | some n => some n
    | none => searchL (matchNightsP3At t) t.length

/-! ### Full date extraction (`EntityExtractor._extract_dates`) -/

/-- Embedding of `EntityExtractor._extract_dates`
(src/pipeline/entities.py), with the `dateparser`-dependent candidate
lists passed through to `find_date_candidates`.  A parsed night count
of `0` is falsy and is not stored by `if nights:`. -/
def extract_dates (text : List Char) (refDate : Int)
    (monthDayCands monthRangeCands slashCands : List DateCandidate) : DateResult :=
  let textLower := lowerL text
  let r0 : DateResult := ⟨none, none, none, 0, 0, 0⟩
  let r1 :=
    match extract_nights textLower with
    | some n => if n ≠ 0 then { r0 with nights := some n, confNights := 1 } else r0
    | none => r0
  let candidates := find_date_candidates text refDate monthDayCands monthRangeCands slashCands
  if candidates.isEmpty then r1
  else
    let cls := classify_dates text candidates
    let arrivals := cls.1
    let departures := cls.2
    let r2 :=
      match arrivals.head? with
      | some cd => { r1 with arrival_date := some cd.date, confArrival := cd.confidence }
      | none => r1
    let r3 :=
      match departures.head? with
      | some cd => { r2 with departure_date := some cd.date, confDeparture := cd.confidence }
      | none => r2
    fill_missing_date_field r3

/-! ### Room-type extraction (`EntityExtractor._extract_room_types`) -/

/-- A room candidate as emitted by `_extract_room_types`. -/
structure RoomCandidate where
  room_type : String
  quantity : Int
  confidence : ℚ
deriving DecidableEq, Repr

/-- The `ROOM_TYPES` table: canonical type and the keyword literals of
its patterns with the surrounding `\b` stripped (`pattern[2:-2]`). -/
def roomTypesTable : List (String × List (List Char)) :=
  [("single", ["single".toList, "one person".toList, "1 person".toList]),
   ("double", ["double".toList, "two people".toList, "2 people".toList]),
   ("twin", ["twin".toList]),
   ("suite", ["suite".toList]),
   ("family", ["family".toList]),
   ("king", ["king".toList]),
   ("queen", ["queen".toList]),
   ("deluxe", ["deluxe".toList]),
   ("standard", ["standard".toList])]

/-- Match of the quantity pattern `(\d+)\s+<kw>(?:\s+rooms?)?` at `p`:
digit run, whitespace run, the keyword literal, and a greedy optional
` rooms`/` room` tail (which only moves the match end). -/
def matchQuantityAt (kw : List Char) (t : List Char) (p : Nat) : Option (Int × Nat) :=
  let dl := runLen Char.isDigit t p
  if dl == 0 then none
  else
    let q := p + dl
    let ws := runLen pyIsSpace t q
    if ws == 0 then none
    else
      let r := q + ws
      if listMatchAt t r kw then
        let s := r + kw.length
        let ws2 := runLen pyIsSpace t s
        let e :=
          if ws2 != 0 && listMatchAt t (s + ws2) "room".toList then
            if t.getD (s + ws2 + 4) ' ' == 's' && s + ws2 + 4 < t.length then s + ws2 + 5
            else s + ws2 + 4
          else s
        some (digitRunVal t p, e)
  else none

/-- Embedding of `EntityExtractor._extract_room_types`
(src/pipeline/entities.py): for each canonical type and each of its
patterns, every quantity-prefixed match is emitted at confidence 0.9;
otherwise a bare keyword occurrence is emitted once per canonical type
at quantity 1 and confidence 0.7. -/
def extract_room_types (text : List Char) : List RoomCandidate :=
  let textLower := lowerL text
  roomTypesTable.foldl
    (fun rooms ctp =>
      ctp.2.foldl
        (fun rooms pat =>
          let ms := finditerL (matchQuantityAt pat textLower) textLower.length
          if !ms.isEmpty then
            rooms ++ ms.map (fun q => ⟨ctp.1, q, 9 / 10⟩)
          else if searchWordAlts [pat] textLower then
            if rooms.any (fun r => r.room_type == ctp.1) then rooms
            else rooms ++ [⟨ctp.1, 1, 7 / 10⟩]
          else rooms)
        rooms)
    []

/-! ### Rule-based intent classification (`IntentClassifier._classify_rules`) -/

/-- An intent classification result. -/
structure IntentResult where
  intent : String
  confidence : ℚ
deriving DecidableEq, Repr

/-- Python `kw in text` (contiguous substring test). -/
def containsSub (needle : String) (t : List Char) : Bool :=
  (List.range (t.length + 1)).any (fun p => listMatchAt t p needle.toList)

/-- Embedding of `IntentClassifier._classify_rules`
(src/pipeline/intent.py): the keyword groups tried in order on the
lowercased text. -/
def classify_rules (text : List Char) : IntentResult :=
  let t := lowerL text
  if ["book", "reserve", "need a room", "looking for", "i need", "we need"].any
      (fun kw => containsSub kw t) then
    ⟨"booking_request", 75 / 100⟩
  else if ["change", "modify", "update my booking", "update my reservation"].any
      (fun kw => containsSub kw t) then
    ⟨"booking_modification", 75 / 100⟩
  else if ["cancel", "cancellation"].any (fun kw => containsSub kw t) then
    ⟨"cancellation", 80 / 100⟩
  else if ["how much", "price", "cost", "rate", "quote"].any
      (fun kw => containsSub kw t) then
    ⟨"price_inquiry", 70 / 100⟩
  else if ["available", "availability", "do you have"].any
      (fun kw => containsSub kw t) then
    ⟨"availability_check", 70 / 100⟩
  else
    ⟨"other", 5 / 10⟩

/-! ### Whitespace normalization (src/pipeline/normalization.py) -/

/-- Python `[^\S\n]`: whitespace other than newline. -/
def isNBSpace (c : Char) : Bool :=
  pyIsSpace c && c ≠ '\n'

/-- The `text.replace('\t', ' ' * tab_to_spaces)` step. -/
def replaceTabs (tabToSpaces : Nat) (s : List Char) : List Char :=
  s.flatMap (fun c => if c = '\t' then List.replicate tabToSpaces ' ' else [c])

/-- The `re.sub(r'[^\S\n]+', ' ', text)` step: every maximal run of
non-newline whitespace becomes a single space. -/
def collapseSpaceRuns : List Char → List Char
  | [] => []
  | [c] => if isNBSpace c then [' '] else [c]
  | c :: d :: rest =>
    if isNBSpace c && isNBSpace d then collapseSpaceRuns (d :: rest)
    else (if isNBSpace c then ' ' else c) :: collapseSpaceRuns (d :: rest)

/-- Worker for the `re.sub(r'\n{max+1,}', '\n' * max, text)` step,
carrying the number of pending newlines of the current run. -/
def collapseNlAux (maxN : Nat) : List Char → Nat → List Char
  | [], pending => List.replicate (if maxN < pending then maxN else pending) '\n'
  | c :: rest, pending =>
    if c = '\n' then collapseNlAux maxN rest (pending + 1)
    else
      List.replicate (if maxN < pending then maxN else pending) '\n' ++
        c :: collapseNlAux maxN rest 0

/-- Newline-run collapsing: runs longer than `maxN` become exactly
`maxN` newlines, shorter runs are kept. -/
def collapseNewlineRuns (maxN : Nat) (l : List Char) : List Char :=
  collapseNlAux maxN l 0

/-- The per-line trim: `'\n'.join(line.strip() for line in text.split('\n'))`. -/
def stripLines (l : List Char) : List Char :=
  joinNl ((splitNl l).map stripChars)

/-- Embedding of `normalize_whitespace` (src/pipeline/normalization.py):
tab replacement, space-run collapsing, newline-run collapsing, per-line
trimming. -/
def normalize_whitespace (maxNewlines tabToSpaces : Nat) (text : List Char) : List Char :=
  let t := replaceTabs tabToSpaces text
  let t := collapseSpaceRuns t
  let t := collapseNewlineRuns maxNewlines t
  stripLines t

/-- The whitespace/trim stage of `EmailNormalizer.normalize`:
`normalize_whitespace` followed by the final `text.strip()`.  With
empty pattern tables (or none matching) this is exactly what
`normalize` does to the text. -/
def wsStage (maxNewlines tabToSpaces : Nat) (text : List Char) : List Char :=
  stripChars (normalize_whitespace maxNewlines tabToSpaces text)

/-! ### Segmentation (src/pipeline/segmentation.py) -/

/-- An internal segment dict of `EmailSegmenter._segment_by_rules`. -/
structure RawSeg where
  text : List Char
  start : Nat
  endPos : Nat
  method : String
deriving DecidableEq, Repr

/-- An output segment of `EmailSegmenter.segment`. -/
structure OutSeg where
  segment_id : Nat
  text : List Char
  start_char : Nat
  end_char : Nat
  method : String
deriving DecidableEq, Repr

/-- The line test `re.match(r'^\s*(\d+)[.)]\s+', line)`. -/
def matchNumberedLine (line : List Char) : Bool :=
  let w := runLen pyIsSpace line 0
  let dl := runLen Char.isDigit line w
  let sep := line.getD (w + dl) ' '
  dl != 0 && (sep == '.' || sep == ')') && w + dl < line.length &&
    runLen pyIsSpace line (w + dl + 1) != 0

/-- The line loop of `EmailSegmenter._split_by_numbered_lists`: state is
(accumulated segments, current segment lines, current start offset,
inside-a-numbered-list flag). -/
def numberedLoop :
    List (List Char) → List (List Char) → Nat → Bool → List RawSeg →
    List RawSeg × List (List Char) × Nat × Bool
  | [], cur, curStart, inList, segs => (segs, cur, curStart, inList)
  | line :: rest, cur, curStart, inList, segs =>
    if matchNumberedLine line then
      if !cur.isEmpty && inList then
        let segText := joinNl cur
        numberedLoop rest [line] (curStart + segText.length + 1) true
          (segs ++ [⟨stripChars segText, curStart, curStart + segText.length, "numbered_list"⟩])
      else
        numberedLoop rest [line] curStart true segs
    else
      numberedLoop rest (cur ++ [line]) curStart inList segs

/-- Embedding of `EmailSegmenter._split_by_numbered_lists`. -/
def split_by_numbered_lists (text : List Char) : List RawSeg :=
  let r := numberedLoop (splitNl text) [] 0 false []
  let segs := r.1
  let cur := r.2.1
  let curStart := r.2.2.1
  let inList := r.2.2.2
  let segs :=
    if inList && !cur.isEmpty then
      let segText := joinNl cur
      segs ++ [⟨stripChars segText, curStart, curStart + segText.length, "numbered_list"⟩]
    else segs
  if segs.length > 1 then segs else []

/-- Match of a separator pattern `\n\s*<word>\b[,;:]?\s+` at `p` on the
lowercased text; returns the end of the match.  The optional
punctuation is greedy, and skipping it cannot save a match because the
following `\s+` never matches a punctuation character. -/
def matchSepAt (w : List Char) (t : List Char) (p : Nat) : Option Nat :=
  if t.getD p ' ' == '\n' && p < t.length then
    let r := p + 1 + runLen pyIsSpace t (p + 1)
    if listMatchAt t r w && wordBoundaryAfter t (r + w.length) then
      let s := r + w.length
      let c := t.getD s ' '
      if (c == ',' || c == ';' || c == ':') && s < t.length then
        let ws2 := runLen pyIsSpace t (s + 1)
        if ws2 == 0 then none else some (s + 1 + ws2)
      else
        let ws2 := runLen pyIsSpace t s
        if ws2 == 0 then none else some (s + ws2)
    else none
  else none

/-- The segment-building loop of `_split_by_separators`, with the
running `last_end`. -/
def sepBuild (t : List Char) : Nat → List (Nat × Nat) → List RawSeg
  | lastEnd, [] =>
    if lastEnd < t.length then
      [⟨stripChars (sliceL t lastEnd t.length), lastEnd, t.length, "separator"⟩]
    else []
  | lastEnd, (s, e) :: rest =>
    if s > lastEnd then
      ⟨stripChars (sliceL t lastEnd s), lastEnd, s, "separator"⟩ :: sepBuild t e rest
    else sepBuild t e rest

/-- The pattern loop of `_split_by_separators`: first pattern with
matches whose split yields more than one segment wins. -/
def sepPatternLoop (t tl : List Char) : List (List Char) → List RawSeg
  | [] => []
  | w :: ws =>
    let ms := finditerL (fun p => (matchSepAt w tl p).map (fun e => ((p, e), e))) tl.length
    if !ms.isEmpty then
      let segs := sepBuild t 0 ms
      if segs.length > 1 then segs else sepPatternLoop t tl ws
    else sepPatternLoop t tl ws

/-- Embedding of `EmailSegmenter._split_by_separators`. -/
def split_by_separators (text : List Char) : List RawSeg :=
  sepPatternLoop text (lowerL text)
    ["also".toList, "additionally".toList, "furthermore".toList]

/-- The ordinal words of the trip-label pattern. -/
def tripOrdinals : List (List Char) :=
  ["first".toList, "second".toList, "third".toList]

/-- The nouns of the trip-label pattern. -/
def tripNouns : List (List Char) :=
  ["trip".toList, "stay".toList, "booking".toList, "visit".toList]

/-- Match of `\b(first|second|third)\s+(trip|stay|booking|visit):?` at
`p` on the lowercased text; returns the end of the match. -/
def matchTripAt (tl : List Char) (p : Nat) : Option Nat :=
  if wordBoundaryBefore tl p then
    tripOrdinals.findSome? (fun w1 =>
      if listMatchAt tl p w1 then
        let ws := runLen pyIsSpace tl (p + w1.length)
        if ws == 0 then none
        else
          let r := p + w1.length + ws
          tripNouns.findSome? (fun w2 =>
            if listMatchAt tl r w2 then
              let s := r + w2.length
              some (if tl.getD s ' ' == ':' && s < tl.length then s + 1 else s)
            else none)
      else none)
  else none

/-- The segment-building loop of `_split_by_trip_labels`: each segment
runs from one label to the next (or to the end of the text). -/
def tripBuild (t : List Char) : List (Nat × Nat) → List RawSeg
  | [] => []
  | [(s, _)] => [⟨stripChars (sliceL t s t.length), s, t.length, "trip_labels"⟩]
  | (s, _) :: (s', e') :: rest =>
    ⟨stripChars (sliceL t s s'), s, s', "trip_labels"⟩ :: tripBuild t ((s', e') :: rest)

/-- Embedding of `EmailSegmenter._split_by_trip_labels`. -/
def split_by_trip_labels (text : List Char) : List RawSeg :=
  let tl := lowerL text
  let ms := finditerL (fun p => (matchTripAt tl p).map (fun e => ((p, e), e))) tl.length
  if ms.length ≥ 2 then tripBuild text ms else []

/-- Embedding of `EmailSegmenter._segment_by_rules`: rule families in
strict priority order, first family with more than one segment wins. -/
def segment_by_rules (text : List Char) : List RawSeg :=
  let s1 := split_by_numbered_lists text
  if s1.length > 1 then s1
  else
    let s2 := split_by_separators text
    if s2.length > 1 then s2
    else
      let s3 := split_by_trip_labels text
      if s3.length > 1 then s3
      else []

/-- Embedding of `EmailSegmenter.segment` (src/pipeline/segmentation.py):
non-booking intents get no segments; otherwise rule-based segmentation
with the whole text as a single default segment as fallback, converted
to the output format with sequential ids. -/
def EmailSegmenter.segment (text : List Char) (intent : String) : List OutSeg :=
  if intent ≠ "booking_request" then []
  else
    let segs := segment_by_rules text
    let segs :=
      if segs.isEmpty then [⟨text, 0, text.length, "default"⟩] else segs
    segs.enum.map (fun iseg =>
      ⟨iseg.1, iseg.2.text, iseg.2.start, iseg.2.endPos, iseg.2.method⟩)

/-- Child-record addresses reachable from a segment's rooms (the
records `enrich_segment` can touch). -/
def referencedChildAddrs (segment : HSegment) : List Nat :=
  segment.rooms.flatMap (fun r => r.childAddrs)

/-- Guest total of orchestrator rooms counted the way the claimed
contract counts it: `adults + len(children)` summed over room entries. -/
def oRoomGuestSum (rooms : List ORoom) : Int :=
  (rooms.map (fun r => r.adults.getD 0 + (r.children.length : Int))).sum

/-- Analysis predicate: a whitespace character that survives the
whitespace pipeline is a plain space or a newline. -/
def benignChar (c : Char) : Bool :=
  !pyIsSpace c || c == ' ' || c == '\n'

/-- Analysis predicate: adjacent-character pairs that the whitespace
pipeline can no longer rewrite (no double space, no space touching a
newline). -/
def okPair (a b : Char) : Bool :=
  !(a == ' ' && b == ' ') && !(a == ' ' && b == '\n') && !(a == '\n' && b == ' ')

/-- Analysis predicate: text in which all whitespace is benign and no
rewritable pair remains. -/
def wsNormal (l : List Char) : Prop :=
  (∀ c ∈ l, benignChar c = true) ∧ List.Chain' (fun a b => okPair a b = true) l

/-- Analysis predicate: the text does not begin or end with a space. -/
def noEdgeSpace (l : List Char) : Prop :=
  l.head? ≠ some ' ' ∧ l.getLast? ≠ some ' '

/-- Analysis predicate: all whitespace benign, only single spaces (the
state right after space-run collapsing). -/
def spacesSingle (l : List Char) : Prop :=
  (∀ c ∈ l, benignChar c = true) ∧
    List.Chain' (fun a b => !(isNBSpace a && isNBSpace b) = true) l

/-- Analysis predicate: the text does not begin or end with any
whitespace character. -/
def noEdgeWs (l : List Char) : Prop :=
  (∀ c, l.head? = some c → pyIsSpace c = false) ∧
    (∀ c, l.getLast? = some c → pyIsSpace c = false)

/-- Analysis predicate: the three confidence fields of a `DateResult`
lie in the unit interval. -/
def confBounded (r : DateResult) : Prop :=
  (0 ≤ r.confArrival ∧ r.confArrival ≤ 1) ∧
  (0 ≤ r.confDeparture ∧ r.confDeparture ≤ 1) ∧
  (0 ≤ r.confNights ∧ r.confNights ≤ 1)

/-! ### Helper lemmas -/

/-- Left fold of integer accumulation equals the initial value plus the
mapped sum. -/
theorem foldl_add_eq_sum {α : Type} (f : α → Int) :
    ∀ (l : List α) (acc : Int), l.foldl (fun a x => a + f x) acc = acc + (l.map f).sum := by
  intro l
  induction l with
  | nil => intro acc; simp
  | cons x xs ih => intro acc; simp [ih]; ring

/-- The guest-total fold of the orchestrator equals the initial value
plus `weightedGuestSum`. -/
theorem foldl_guests_eq_sum :
    ∀ (l : List ORoom) (acc : Int),
      l.foldl
        (fun acc r => match r.total_guests with
          | none => acc
          | some t => acc + t * r.quantity) acc = acc + weightedGuestSum l := by
  intro l
  induction l with
  | nil => intro acc; simp [weightedGuestSum]
  | cons x xs ih =>
    intro acc
    cases h : x.total_guests with
    | none => simp [weightedGuestSum, h, ih]
    | some t => simp [weightedGuestSum, h, ih]; ring

/-! ### Claim C1 -/

/-- C1, counterexample: the orchestrator classification does not agree
with the claimed contract.  A single room entry of quantity 2, with
room threshold 2 and guest threshold 15, has one room entry (below the
threshold) and zero guests, yet `_is_group_booking` classifies it as a
group because it sums quantities instead of counting entries. -/
theorem C1_counterexample :
    orch_is_group_booking 2 15 [⟨none, 2, none, [], none⟩] = true ∧
    roomEntryCount [⟨none, 2, none, [], none⟩] = 1 ∧
    oRoomGuestSum [⟨none, 2, none, [], none⟩] = 0 ∧
    ¬ ((2 : Int) ≤ 1 ∨ (15 : Int) ≤ 0) := by
  refine ⟨by decide, by decide, by decide, by decide⟩

/-- C1, amended: `BusinessLogic.is_group_booking` is true iff the
number of room entries reaches the room threshold or the summed
`adults + len(children)` reaches the guest threshold (both inclusive,
so exactly `room_threshold` entries classify as group and
`room_threshold - 1` entries with a guest sum below threshold do not);
the orchestrator's `_is_group_booking`, however, is true iff the room
list is nonempty and either the summed quantities reach its room
threshold or the quantity-weighted guest total is positive and reaches
its guest threshold. -/
theorem C1_amended :
    (∀ (rt gt : Int) (seg : HSegment),
      is_group_booking rt gt seg = true ↔
        rt ≤ (seg.rooms.length : Int) ∨ gt ≤ blGuestSum seg) ∧
    (∀ (mr mg : Int) (rooms : List ORoom),
      orch_is_group_booking mr mg rooms = true ↔
        rooms ≠ [] ∧ (mr ≤ quantitySum rooms ∨
          (0 < weightedGuestSum rooms ∧ mg ≤ weightedGuestSum rooms))) := by
  constructor
  · intro rt gt seg
    have h := foldl_add_eq_sum
      (fun room : HRoom => pyAdultsOrZero room.adults + (room.childAddrs.length : Int))
      seg.rooms 0
    simp only [is_group_booking, blGuestSum, h, zero_add, ge_iff_le,
      Bool.or_eq_true, decide_eq_true_eq]
  · intro mr mg rooms
    cases rooms with
    | nil => simp [orch_is_group_booking]
    | cons r rs =>
      have hq := foldl_add_eq_sum (fun r : ORoom => r.quantity) (r :: rs) 0
      have hg := foldl_guests_eq_sum (r :: rs) 0
      simp only [orch_is_group_booking, List.isEmpty_cons, if_false, Bool.false_eq_true,
        hq, hg, zero_add, quantitySum, ge_iff_le, gt_iff_lt,
        Bool.or_eq_true, Bool.and_eq_true, decide_eq_true_eq]
      simp [and_comm]

/-! ### Claim C2 -/

/-- C2: `RulesEngine.resolve_dates` and the extractor's triangulation
do not agree; in particular `resolve_dates` has no
departure-plus-nights branch even though its own docstring lists it as
"Case 3".  With arrival absent, departure day 20588 (2026-05-15) and
nights 3, `resolve_dates` returns the input unchanged with method
`insufficient_data`, while `_fill_missing_date_field` derives arrival
day 20585 (2026-05-12). -/
theorem C2_code_bug :
    resolve_dates none (some 20588) (some 3) =
      (⟨none, some 20588, some 3⟩, "insufficient_data") ∧
    (fill_missing_date_field ⟨none, some 20588, some 3, 0, 0, 1⟩).arrival_date =
      some 20585 ∧
    (fill_missing_date_field ⟨none, some 20588, some 3, 0, 0, 1⟩).confArrival = 8/10 := by
  refine ⟨by decide, by decide, by rfl⟩

/-! ### Claim C3 -/

/-- C3, counterexample: with arrival day 20585, departure day 20588
(difference 3) and an extracted nights of 5 all present, the
triangulation step of the extractor returns nights 5 unchanged - the
mismatching nights value is not corrected from the dates. -/
theorem C3_counterexample :
    (fill_missing_date_field ⟨some 20585, some 20588, some 5, 1/2, 1/2, 1⟩).nights =
      some 5 ∧
    (20588 : Int) - 20585 = 3 := by
  refine ⟨by decide, by decide⟩

/-- C3, amended: when all three of arrival, departure and nights are
present (and nights nonzero, hence truthy), `RulesEngine.resolve_dates`
corrects nights to the day difference and never alters the dates; the
extractor's `_fill_missing_date_field` only fills missing fields and
returns such a result completely unchanged, leaving a mismatching
nights in place. -/
theorem C3_amended (a d n : Int) (hn : n ≠ 0) (r : DateResult)
    (ha : r.arrival_date = some a) (hd : r.departure_date = some d)
    (hnn : r.nights = some n) :
    resolve_dates (some a) (some d) (some n) =
      (⟨some a, some d, some (d - a)⟩, "all_present_validated") ∧
    fill_missing_date_field r = r := by
  have hb : (n != 0) = true := by simpa using hn
  constructor
  · simp only [resolve_dates, pyTruthyOptDate, pyTruthyOptInt, Option.isSome_some,
      Option.isSome_none, Option.getD_some, hb, Bool.and_true, Bool.true_and,
      Bool.not_true, Bool.not_false, Bool.and_false, Bool.false_and]
    simp only [Bool.false_eq_true, if_false, if_true]
    by_cases h : d - a = n
    · simp [h]
    · simp [h]
  · simp [fill_missing_date_field, ha, hd, hnn, pyTruthyOptDate, pyTruthyOptInt, hb]

/-- C3, witness for the amended theorem at arrival 0, departure 3,
nights 5. -/
theorem C3_witness :
    resolve_dates (some 0) (some 3) (some 5) =
      (⟨some 0, some 3, some (3 - 0)⟩, "all_present_validated") ∧
    fill_missing_date_field ⟨some 0, some 3, some 5, 0, 0, 1⟩ =
      ⟨some 0, some 3, some 5, 0, 0, 1⟩ :=
  C3_amended 0 3 5 (by norm_num) ⟨some 0, some 3, some 5, 0, 0, 1⟩ rfl rfl rfl

/-! ### Claim C8 -/

/-- C8: triangulation round-trip.  For every arrival day and every
nights greater than zero with departure absent, resolving the departure
via `resolve_dates(arrival, None, nights)` and then re-deriving nights
via `resolve_dates(arrival, departure, None)` returns the original
nights value. -/
theorem C8_triangulation_roundtrip (a n : Int) (hn : 0 < n) :
    (resolve_dates (some a)
      (resolve_dates (some a) none (some n)).1.departure_date none).1.nights = some n := by
  have hb : (n != 0) = true := by simpa using ne_of_gt hn
  simp [resolve_dates, pyTruthyOptDate, pyTruthyOptInt, hb]

/-- C8, witness at arrival day 0 and nights 3. -/
theorem C8_witness :
    (resolve_dates (some 0)
      (resolve_dates (some 0) none (some 3)).1.departure_date none).1.nights = some 3 :=
  C8_triangulation_roundtrip 0 3 (by norm_num)

/-! ### Claim C10 -/

/-- C10: a child record whose `age` key holds `None` (the shape
`_extract_children` produces for age-less children, e.g. from a bare
"2 kids" mention) makes `enrich_segment` raise a `TypeError` from the
`None < threshold` comparison in `classify_guest_age`, rather than
skipping or annotating the record; the error is raised by the public
`enrich_segment` entry point. -/
theorem C10_null_age_raises :
    enrich_segment 12 7 15 ⟨[⟨some 2, [0]⟩]⟩ [⟨AgeField.null, none⟩] =
      .error "TypeError" ∧
    (∀ threshold : Int, classify_guest_age threshold none = .error "TypeError") :=
  ⟨by rfl, fun _ => rfl⟩

/-! ### Claim C4 -/

theorem annotateChildren_frame (threshold : Int) :
    ∀ (addrs : List Nat) (heap heap' : List ChildRec),
      annotateChildren threshold addrs heap = .ok heap' →
      ∀ a, a ∉ addrs → heap'.get? a = heap.get? a := by
  intro addrs
  induction addrs with
  | nil =>
    intro heap heap' h a _
    simp only [annotateChildren, Except.ok.injEq] at h
    rw [h]
  | cons addr rest ih =>
    intro heap heap' h a ha
    have hane : addr ≠ a := fun e => ha (e ▸ List.mem_cons_self addr rest)
    have harest : a ∉ rest := fun m => ha (List.mem_cons_of_mem _ m)
    cases hget : heap.get? addr with
    | none =>
      simp only [annotateChildren, hget] at h
      exact ih heap heap' h a harest
    | some child =>
      cases haf : child.ageField with
      | absent =>
        simp only [annotateChildren, hget, haf] at h
        exact ih heap heap' h a harest
      | null =>
        simp only [annotateChildren, hget, haf, AgeField.value, classify_guest_age] at h
        exact (Except.noConfusion h)
      | val v =>
        simp only [annotateChildren, hget, haf, AgeField.value, classify_guest_age] at h
        rw [ih _ _ h a harest]
        simp [List.get?_eq_getElem?, List.getElem?_set_ne hane]

theorem annotateRooms_frame (threshold : Int) :
    ∀ (rooms : List HRoom) (heap heap' : List ChildRec),
      annotateRooms threshold rooms heap = .ok heap' →
      ∀ a, (∀ room ∈ rooms, a ∉ room.childAddrs) → heap'.get? a = heap.get? a := by
  intro rooms
  induction rooms with
  | nil =>
    intro heap heap' h a _
    simp only [annotateRooms, Except.ok.injEq] at h
    rw [h]
  | cons room rest ih =>
    intro heap heap' h a ha
    cases hac : annotateChildren threshold room.childAddrs heap with
    | error e =>
      simp only [annotateRooms, hac] at h
      exact (Except.noConfusion h)
    | ok heap1 =>
      simp only [annotateRooms, hac] at h
      rw [ih heap1 heap' h a (fun r hr => ha r (List.mem_cons_of_mem _ hr))]
      exact annotateChildren_frame threshold room.childAddrs heap heap1 hac a
        (ha room (List.mem_cons_self _ _))

/-- C4, amended: `enrich_segment` returns a shallow copy, so the
enriched segment's rooms list is the input's own rooms list, and the
child annotations are written in place through that sharing; the
mutation is confined to the child records referenced from the
segment's rooms - every other heap cell is untouched. -/
theorem C4_amended (threshold rt gt : Int) (seg : HSegment)
    (heap heap' : List ChildRec) (out : EnrichedSegment)
    (h : enrich_segment threshold rt gt seg heap = .ok (out, heap'))
    (addr : Nat) (haddr : addr ∉ referencedChildAddrs seg) :
    out.rooms = seg.rooms ∧ heap'.get? addr = heap.get? addr := by
  cases har : annotateRooms threshold seg.rooms heap with
  | error e =>
    simp only [enrich_segment, har] at h
    exact (Except.noConfusion h)
  | ok heap1 =>
    simp only [enrich_segment, har, Except.ok.injEq, Prod.mk.injEq] at h
    obtain ⟨hout, hheap⟩ := h
    subst hout
    subst hheap
    refine ⟨rfl, ?_⟩
    refine annotateRooms_frame threshold seg.rooms heap heap1 har addr ?_
    intro room hroom hmem
    exact haddr (by
      simp only [referencedChildAddrs, List.mem_flatMap]
      exact ⟨room, hroom, hmem⟩)

/-- C4, counterexample: `enrich_segment` mutates its input.  A segment
with one room holding one child of age 5 succeeds, but the shared child
record has gained a `classification` key, so the child records the
input references are no longer what they were. -/
theorem C4_counterexample :
    enrich_segment 12 7 15 ⟨[⟨some 2, [0]⟩]⟩ [⟨AgeField.val 5, none⟩] =
      .ok (⟨[⟨some 2, [0]⟩], false⟩, [⟨AgeField.val 5, some "child"⟩]) ∧
    ([⟨AgeField.val 5, some "child"⟩] : List ChildRec) ≠ [⟨AgeField.val 5, none⟩] :=
  ⟨by rfl, by decide⟩

/-- C4, witness for the amended theorem at the counterexample input and
the untouched heap cell 1. -/
theorem C4_witness :
    (⟨[⟨some 2, [0]⟩], false⟩ : EnrichedSegment).rooms =
      (⟨[⟨some 2, [0]⟩]⟩ : HSegment).rooms ∧
    ([⟨AgeField.val 5, some "child"⟩] : List ChildRec).get? 1 =
      ([⟨AgeField.val 5, none⟩] : List ChildRec).get? 1 :=
  C4_amended 12 7 15 ⟨[⟨some 2, [0]⟩]⟩ [⟨AgeField.val 5, none⟩]
    [⟨AgeField.val 5, some "child"⟩] ⟨[⟨some 2, [0]⟩], false⟩ (by rfl) 1 (by decide)

/-! ### Claim C9 -/

theorem scoreConfidence_bounds (s : Nat) :
    0 ≤ scoreConfidence s ∧ scoreConfidence s ≤ 1 := by
  unfold scoreConfidence
  constructor
  · apply le_min
    · norm_num
    · positivity
  · exact le_trans (min_le_left _ _) (by norm_num)

theorem half_bounds : 0 ≤ (1 / 2 : ℚ) ∧ (1 / 2 : ℚ) ≤ 1 := by norm_num

theorem classifyDatesLoop_bounds (textLower : List Char) :
    ∀ (cands : List DateCandidate) (arr dep : List ClassifiedDate),
      (∀ cd ∈ arr, 0 ≤ cd.confidence ∧ cd.confidence ≤ 1) →
      (∀ cd ∈ dep, 0 ≤ cd.confidence ∧ cd.confidence ≤ 1) →
      ∀ cd : ClassifiedDate,
        (cd ∈ (classifyDatesLoop textLower cands arr dep).1 ∨
         cd ∈ (classifyDatesLoop textLower cands arr dep).2) →
        0 ≤ cd.confidence ∧ cd.confidence ≤ 1 := by
  intro cands
  induction cands with
  | nil =>
    intro arr dep ha hd cd hcd
    simp only [classifyDatesLoop] at hcd
    rcases hcd with h | h
    · exact ha cd h
    · exact hd cd h
  | cons c rest ih =>
    intro arr dep ha hd cd hcd
    simp only [classifyDatesLoop] at hcd
    split_ifs at hcd with h1 h2 h3 h4
    · refine ih _ _ ?_ hd cd hcd
      intro x hx
      rcases List.mem_append.mp hx with hx | hx
      · exact ha x hx
      · rcases List.mem_singleton.mp hx with rfl
        exact scoreConfidence_bounds _
    · refine ih _ _ ha ?_ cd hcd
      intro x hx
      rcases List.mem_append.mp hx with hx | hx
      · exact hd x hx
      · rcases List.mem_singleton.mp hx with rfl
        exact scoreConfidence_bounds _
    · refine ih _ _ ?_ hd cd hcd
      intro x hx
      rcases List.mem_append.mp hx with hx | hx
      · exact ha x hx
      · rcases List.mem_singleton.mp hx with rfl
        exact half_bounds
    · refine ih _ _ ha ?_ cd hcd
      intro x hx
      rcases List.mem_append.mp hx with hx | hx
      · exact hd x hx
      · rcases List.mem_singleton.mp hx with rfl
        exact half_bounds
    · exact ih _ _ ha hd cd hcd

theorem classify_dates_bounds (text : List Char) (cands : List DateCandidate)
    (cd : ClassifiedDate)
    (h : cd ∈ (classify_dates text cands).1 ∨ cd ∈ (classify_dates text cands).2) :
    0 ≤ cd.confidence ∧ cd.confidence ≤ 1 := by
  have hperm1 := List.perm_insertionSort confDesc
    (classifyDatesLoop (lowerL text) cands [] []).1
  have hperm2 := List.perm_insertionSort confDesc
    (classifyDatesLoop (lowerL text) cands [] []).2
  refine classifyDatesLoop_bounds (lowerL text) cands [] []
    (by intro x hx; simp at hx) (by intro x hx; simp at hx) cd ?_
  rcases h with h | h
  · left
    simp only [classify_dates] at h
    exact hperm1.mem_iff.mp h
  · right
    simp only [classify_dates] at h
    exact hperm2.mem_iff.mp h

theorem fill_conf_bounds (r : DateResult) (h : confBounded r) :
    confBounded (fill_missing_date_field r) := by
  obtain ⟨h1, h2, h3⟩ := h
  unfold confBounded fill_missing_date_field
  split_ifs <;> simp_all
  all_goals try (split_ifs <;> simp_all)
  all_goals norm_num

theorem foldl_preserve {α β : Type} (P : β → Prop) (step : List β → α → List β)
    (hstep : ∀ acc x, (∀ b ∈ acc, P b) → ∀ b ∈ step acc x, P b) :
    ∀ (l : List α) (acc : List β), (∀ b ∈ acc, P b) → ∀ b ∈ l.foldl step acc, P b := by
  intro l
  induction l with
  | nil => intro acc hacc; simpa using hacc
  | cons x xs ih => intro acc hacc; exact ih (step acc x) (hstep acc x hacc)

theorem extract_room_types_bounds (text : List Char) (rc : RoomCandidate)
    (h : rc ∈ extract_room_types text) :
    0 ≤ rc.confidence ∧ rc.confidence ≤ 1 := by
  unfold extract_room_types at h
  refine foldl_preserve (fun b => 0 ≤ b.confidence ∧ b.confidence ≤ 1) _ ?_
    roomTypesTable [] (by intro b hb; simp at hb) rc h
  intro acc ctp hacc
  refine foldl_preserve (fun b => 0 ≤ b.confidence ∧ b.confidence ≤ 1) _ ?_ ctp.2 acc hacc
  intro acc2 pat hacc2 b hb
  dsimp only at hb
  split_ifs at hb with hq hs hdup
  · rcases List.mem_append.mp hb with hb | hb
    · exact hacc2 b hb
    · rcases List.mem_map.mp hb with ⟨q, _, rfl⟩
      constructor <;> norm_num
  · exact hacc2 b hb
  · rcases List.mem_append.mp hb with hb | hb
    · exact hacc2 b hb
    · rcases List.mem_singleton.mp hb with rfl
      constructor <;> norm_num
  · exact hacc2 b hb

theorem classify_rules_bounds (text : List Char) :
    0 ≤ (classify_rules text).confidence ∧ (classify_rules text).confidence ≤ 1 := by
  simp only [classify_rules]
  split_ifs <;> norm_num

theorem extract_dates_conf_bounds (text : List Char) (refDate : Int)
    (p2 p2b p3 : List DateCandidate) :
    confBounded (extract_dates text refDate p2 p2b p3) := by
  simp only [extract_dates]
  have hbase : confBounded (⟨none, none, none, 0, 0, 0⟩ : DateResult) := by
    unfold confBounded; norm_num
  have hone : ∀ n : Int, confBounded (⟨none, none, some n, 0, 0, 1⟩ : DateResult) := by
    intro n; unfold confBounded; norm_num
  have hstep : ∀ r1 : DateResult, confBounded r1 →
      confBounded
        (if (find_date_candidates text refDate p2 p2b p3).isEmpty = true then r1
         else
          fill_missing_date_field
            (match (classify_dates text (find_date_candidates text refDate p2 p2b p3)).2.head? with
             | some cd =>
               { (match (classify_dates text (find_date_candidates text refDate p2 p2b p3)).1.head? with
                  | some cd1 =>
                    { r1 with arrival_date := some cd1.date, confArrival := cd1.confidence }
                  | none => r1) with
                 departure_date := some cd.date, confDeparture := cd.confidence }
             | none =>
               match (classify_dates text (find_date_candidates text refDate p2 p2b p3)).1.head? with
               | some cd1 =>
                 { r1 with arrival_date := some cd1.date, confArrival := cd1.confidence }
               | none => r1)) := by
    intro r1 hr1
    split_ifs with hemp
    · exact hr1
    · apply fill_conf_bounds
      have harr : confBounded
          (match (classify_dates text (find_date_candidates text refDate p2 p2b p3)).1.head? with
           | some cd1 => { r1 with arrival_date := some cd1.date, confArrival := cd1.confidence }
           | none => r1) := by
        cases hh : (classify_dates text (find_date_candidates text refDate p2 p2b p3)).1.head? with
        | none => exact hr1
        | some cd1 =>
          have hmem := classify_dates_bounds text (find_date_candidates text refDate p2 p2b p3)
            cd1 (Or.inl (List.mem_of_mem_head? (by simp [hh])))
          obtain ⟨hA, hD, hN⟩ := hr1
          exact ⟨⟨hmem.1, hmem.2⟩, hD, hN⟩
      cases hh2 : (classify_dates text (find_date_candidates text refDate p2 p2b p3)).2.head? with
      | none => exact harr
      | some cd =>
        have hmem := classify_dates_bounds text (find_date_candidates text refDate p2 p2b p3)
          cd (Or.inr (List.mem_of_mem_head? (by simp [hh2])))
        obtain ⟨hA, hD, hN⟩ := harr
        exact ⟨hA, ⟨hmem.1, hmem.2⟩, hN⟩
  have hr1 : confBounded
      (match extract_nights (lowerL text) with
        | some n =>
          if n ≠ 0 then
            { arrival_date := none, departure_date := none, nights := some n,
              confArrival := 0, confDeparture := 0, confNights := 1 }
          else ⟨none, none, none, 0, 0, 0⟩
        | none => (⟨none, none, none, 0, 0, 0⟩ : DateResult)) := by
    cases hn : extract_nights (lowerL text) with
    | none => exact hbase
    | some n =>
      dsimp only
      split_ifs with hz
      · exact hone n
      · exact hbase
  exact hstep _ hr1

/-- C9: every confidence the pipeline emits lies in the closed unit
interval: the three confidences of the extracted `DateResult`
(classification, nights, and triangulated fields), every confidence in
the arrival/departure classification lists, the rule-based intent
confidence, and every room-candidate confidence. -/
theorem C9_confidence_bounds :
    (∀ (text : List Char) (refDate : Int) (p2 p2b p3 : List DateCandidate),
      confBounded (extract_dates text refDate p2 p2b p3)) ∧
    (∀ (text : List Char) (cands : List DateCandidate) (cd : ClassifiedDate),
      cd ∈ (classify_dates text cands).1 ∨ cd ∈ (classify_dates text cands).2 →
      0 ≤ cd.confidence ∧ cd.confidence ≤ 1) ∧
    (∀ text : List Char,
      0 ≤ (classify_rules text).confidence ∧ (classify_rules text).confidence ≤ 1) ∧
    (∀ (text : List Char) (rc : RoomCandidate), rc ∈ extract_room_types text →
      0 ≤ rc.confidence ∧ rc.confidence ≤ 1) :=
  ⟨extract_dates_conf_bounds, classify_dates_bounds, classify_rules_bounds,
    extract_room_types_bounds⟩

/-- C9, witness: the bound instantiated at the room candidate the
extractor emits for the text "a suite". -/
theorem C9_witness :
    0 ≤ (⟨"suite", 1, 7 / 10⟩ : RoomCandidate).confidence ∧
    (⟨"suite", 1, 7 / 10⟩ : RoomCandidate).confidence ≤ 1 :=
  C9_confidence_bounds.2.2.2 "a suite".toList ⟨"suite", 1, 7 / 10⟩ (by
    have h : extract_room_types "a suite".toList = [⟨"suite", 1, 7 / 10⟩] := by rfl
    rw [h]
    exact List.mem_singleton_self _)

/-! ### Claim C7 -/

theorem addCandidateDedup_nodup (acc : List DateCandidate) (c : DateCandidate)
    (h : (acc.map (fun c => c.date)).Nodup) :
    ((addCandidateDedup acc c).map (fun c => c.date)).Nodup := by
  unfold addCandidateDedup
  split_ifs with hmem
  · exact h
  · rw [List.map_append, List.map_singleton]
    rw [List.nodup_append]
    refine ⟨h, List.nodup_singleton _, ?_⟩
    intro x hx hx2
    rcases List.mem_singleton.mp hx2 with rfl
    rcases List.mem_map.mp hx with ⟨c0, hc0, hdate⟩
    apply hmem
    rw [List.any_eq_true]
    exact ⟨c0, hc0, by simp [hdate]⟩

theorem foldl_nodup_generic {α : Type} (step : List DateCandidate → α → List DateCandidate)
    (hstep : ∀ acc x, (acc.map (fun c => c.date)).Nodup →
      ((step acc x).map (fun c => c.date)).Nodup) :
    ∀ (l : List α) (acc : List DateCandidate),
      (acc.map (fun c => c.date)).Nodup →
      ((l.foldl step acc).map (fun c => c.date)).Nodup := by
  intro l
  induction l with
  | nil => intro acc h; simpa using h
  | cons x xs ih => intro acc h; exact ih (step acc x) (hstep acc x h)

theorem addRelativeCandidates_nodup (text : List Char) (refDate : Int)
    (acc : List DateCandidate) (h : (acc.map (fun c => c.date)).Nodup) :
    ((addRelativeCandidates text refDate acc).map (fun c => c.date)).Nodup := by
  unfold addRelativeCandidates
  refine foldl_nodup_generic _ ?_ _ acc h
  intro acc2 wo h2
  cases hs : searchRelative (lowerL text) wo.1 with
  | none => simpa [hs] using h2
  | some se =>
    simp only [hs]
    exact addCandidateDedup_nodup acc2 _ h2

/-- C7, counterexample: on the text "2026-05-12 2026-05-12" the ISO
detector emits two candidates with the same resulting ISO date - the
deduplication guard is absent from the ISO and month-day-year detectors,
so the candidate list is not duplicate-free. -/
theorem C7_counterexample :
    ¬ (((find_date_candidates "2026-05-12 2026-05-12".toList 0 [] [] []).map
        (fun c => c.date)).Nodup) := by
  decide

/-- C7, amended: the candidate list is sorted by text position, and the
month-to-month range, slash-numeric and relative detectors only add
candidates whose ISO date is new; but the ISO and month-day-year
detectors do not deduplicate, so the list is duplicate-free only when
those two detectors jointly emit at most one candidate per date. -/
theorem C7_amended (text : List Char) (refDate : Int) (p2 p2b p3 : List DateCandidate)
    (h : ((isoCandidates text ++ p2).map (fun c => c.date)).Nodup) :
    ((find_date_candidates text refDate p2 p2b p3).map (fun c => c.date)).Nodup ∧
    List.Sorted posLe (find_date_candidates text refDate p2 p2b p3) := by
  unfold find_date_candidates
  constructor
  · have hperm := (List.perm_insertionSort posLe
      (addRelativeCandidates text refDate
        (p3.foldl addCandidateDedup (p2b.foldl addCandidateDedup (isoCandidates text ++ p2))))).map
      (fun c => c.date)
    rw [hperm.nodup_iff]
    refine addRelativeCandidates_nodup text refDate _ ?_
    refine foldl_nodup_generic _ (fun a c hn => addCandidateDedup_nodup a c hn) p3 _ ?_
    exact foldl_nodup_generic _ (fun a c hn => addCandidateDedup_nodup a c hn) p2b _ h
  · exact List.sorted_insertionSort posLe _

/-- C7, witness for the amended theorem on the text
"from 2026-05-12 until 2026-05-15". -/
theorem C7_witness :
    ((find_date_candidates "from 2026-05-12 until 2026-05-15".toList 0 [] [] []).map
      (fun c => c.date)).Nodup ∧
    List.Sorted posLe
      (find_date_candidates "from 2026-05-12 until 2026-05-15".toList 0 [] [] []) :=
  C7_amended "from 2026-05-12 until 2026-05-15".toList 0 [] [] [] (by decide)

/-! ### Claim C5 -/

theorem dropWhile_suffix_of (p : Char → Bool) :
    ∀ l : List Char, l.dropWhile p <:+ l := by
  intro l
  induction l with
  | nil => simp
  | cons a t ih =>
    by_cases h : p a = true
    · rw [List.dropWhile_cons, if_pos h]
      exact ih.trans (List.suffix_cons a t)
    · rw [List.dropWhile_cons, if_neg h]

theorem head_dropWhile_false (p : Char → Bool) :
    ∀ (l : List Char) (c : Char), (l.dropWhile p).head? = some c → p c = false := by
  intro l
  induction l with
  | nil => intro c h; simp at h
  | cons a t ih =>
    intro c h
    by_cases ha : p a = true
    · rw [List.dropWhile_cons, if_pos ha] at h
      exact ih c h
    · rw [List.dropWhile_cons, if_neg ha] at h
      simp at h
      rw [← h]
      simpa using ha

theorem dropWhile_eq_self_of_head (p : Char → Bool) (l : List Char)
    (h : ∀ c, l.head? = some c → p c = false) : l.dropWhile p = l := by
  cases l with
  | nil => rfl
  | cons a t =>
    rw [List.dropWhile_cons, if_neg (by simp [h a rfl])]

theorem rdropWhile_eq_self_of_last (p : Char → Bool) (l : List Char)
    (h : ∀ c, l.getLast? = some c → p c = false) : List.rdropWhile p l = l := by
  rw [List.rdropWhile_eq_self_iff]
  intro hl
  have := h (l.getLast hl) (List.getLast?_eq_getLast l hl ▸ rfl)
  simp [this]

theorem stripChars_eq_rdrop (l : List Char) :
    stripChars l = List.rdropWhile pyIsSpace (l.dropWhile pyIsSpace) := by
  simp [stripChars, List.rdropWhile]

theorem stripChars_head_false (l : List Char) (c : Char)
    (h : (stripChars l).head? = some c) : pyIsSpace c = false := by
  rw [stripChars_eq_rdrop] at h
  have hpre : List.rdropWhile pyIsSpace (l.dropWhile pyIsSpace) <+: l.dropWhile pyIsSpace :=
    List.rdropWhile_prefix pyIsSpace (l.dropWhile pyIsSpace)
  obtain ⟨t, ht⟩ := hpre
  apply head_dropWhile_false pyIsSpace l c
  rw [← ht]
  cases hr : List.rdropWhile pyIsSpace (l.dropWhile pyIsSpace) with
  | nil => rw [hr] at h; simp at h
  | cons a s =>
    rw [hr] at h
    simp at h
    simp [← h]

theorem stripChars_last_false (l : List Char) (c : Char)
    (h : (stripChars l).getLast? = some c) : pyIsSpace c = false := by
  rw [stripChars_eq_rdrop] at h
  have hne : List.rdropWhile pyIsSpace (l.dropWhile pyIsSpace) ≠ [] := by
    intro he; rw [he] at h; simp at h
  have := List.rdropWhile_last_not pyIsSpace (l.dropWhile pyIsSpace) hne
  rw [List.getLast?_eq_getLast _ hne] at h
  simp only [Option.some.injEq] at h
  rw [← h]
  simpa using this

theorem stripChars_eq_self (l : List Char)
    (h1 : ∀ c, l.head? = some c → pyIsSpace c = false)
    (h2 : ∀ c, l.getLast? = some c → pyIsSpace c = false) : stripChars l = l := by
  rw [stripChars_eq_rdrop, dropWhile_eq_self_of_head pyIsSpace l h1,
    rdropWhile_eq_self_of_last pyIsSpace l h2]

theorem stripChars_idem (l : List Char) : stripChars (stripChars l) = stripChars l :=
  stripChars_eq_self _ (stripChars_head_false l) (stripChars_last_false l)

theorem runLen_le (pred : Char → Bool) (t : List Char) (p : Nat) :
    runLen pred t p ≤ t.length - p := by
  unfold runLen
  calc ((t.drop p).takeWhile pred).length ≤ (t.drop p).length :=
        List.Sublist.length_le (List.takeWhile_sublist pred)
    _ = t.length - p := List.length_drop p t

theorem runLen_pos_lt (pred : Char → Bool) (t : List Char) (p : Nat)
    (h : runLen pred t p ≠ 0) : p < t.length := by
  have := runLen_le pred t p
  omega

theorem listMatchAt_bound (t : List Char) (p : Nat) (pat : List Char)
    (h : listMatchAt t p pat = true) : p + pat.length ≤ t.length ∨ pat = [] := by
  unfold listMatchAt at h
  have heq : (t.drop p).take pat.length = pat := by simpa using h
  have hlen := congrArg List.length heq
  simp [List.length_take, List.length_drop] at hlen
  rcases Nat.eq_zero_or_pos pat.length with hz | hpos
  · right; exact List.length_eq_zero.mp hz
  · left; omega

theorem finditer_spans (f : Nat → Option Nat) (len : Nat)
    (hf : ∀ p e, f p = some e → p < e ∧ e ≤ len) :
    ∀ (fuel pos : Nat),
      (∀ m ∈ finditerAux (fun p => (f p).map (fun e => ((p, e), e))) len fuel pos,
        pos ≤ m.1 ∧ m.1 < m.2 ∧ m.2 ≤ len) ∧
      List.Chain' (fun a b : Nat × Nat => a.2 ≤ b.1)
        (finditerAux (fun p => (f p).map (fun e => ((p, e), e))) len fuel pos) := by
  intro fuel
  induction fuel with
  | zero => intro pos; simp [finditerAux]
  | succ fuel ih =>
    intro pos
    rw [finditerAux]
    split_ifs with hlen
    · simp
    · cases hm : f pos with
      | none =>
        simp only [hm, Option.map_none']
        refine ⟨fun m hmem => ?_, (ih (pos + 1)).2⟩
        have := (ih (pos + 1)).1 m hmem
        omega
      | some e =>
        simp only [hm, Option.map_some']
        obtain ⟨hpe, hel⟩ := hf pos e hm
        constructor
        · intro m hmem
          rcases List.mem_cons.mp hmem with rfl | hmem
          · exact ⟨Nat.le_refl _, hpe, hel⟩
          · have := (ih (max e (pos + 1))).1 m hmem
            omega
        · rw [List.chain'_cons']
          refine ⟨?_, (ih (max e (pos + 1))).2⟩
          intro y hy
          have hy2 := (ih (max e (pos + 1))).1 y (List.mem_of_mem_head? hy)
          simp only
          omega

theorem spans_lower :
    ∀ (ms : List (Nat × Nat)) (x : Nat × Nat),
      List.Chain' (fun a b : Nat × Nat => a.2 ≤ b.1) (x :: ms) →
      (∀ m ∈ ms, m.1 < m.2) →
      ∀ m ∈ ms, x.2 ≤ m.1 := by
  intro ms
  induction ms with
  | nil => intro x _ _ m hm; simp at hm
  | cons y ys ih =>
    intro x hch hlt m hm
    have hxy : x.2 ≤ y.1 := (List.chain'_cons'.mp hch).1 y rfl
    rcases List.mem_cons.mp hm with rfl | hm
    · exact hxy
    · have hy2 : y.2 ≤ m.1 := ih y (List.chain'_cons'.mp hch).2
        (fun m hm => hlt m (List.mem_cons_of_mem _ hm)) m hm
      have := hlt y (List.mem_cons_self _ _)
      omega

theorem matchSepAt_bounds (w t : List Char) (hw : w ≠ []) (p e : Nat)
    (h : matchSepAt w t p = some e) : p < e ∧ e ≤ t.length := by
  unfold matchSepAt at h
  dsimp only at h
  split_ifs at h with h1 h2 h3 h4 h5
  · simp only [Option.some.injEq] at h
    subst h
    simp only [Bool.and_eq_true, beq_iff_eq, decide_eq_true_eq] at h1 h2 h3
    rcases listMatchAt_bound t _ w h2.1 with hb | hb
    · have hr := runLen_le pyIsSpace t (p + 1 + runLen pyIsSpace t (p + 1) + w.length + 1)
      constructor <;> omega
    · exact absurd hb hw
  · simp only [Option.some.injEq] at h
    subst h
    simp only [Bool.and_eq_true, beq_iff_eq, decide_eq_true_eq] at h1 h2
    rcases listMatchAt_bound t _ w h2.1 with hb | hb
    · have hws : runLen pyIsSpace t (p + 1 + runLen pyIsSpace t (p + 1) + w.length) ≠ 0 := by
        simpa using h5
      have hlt := runLen_pos_lt pyIsSpace t _ hws
      have hr := runLen_le pyIsSpace t (p + 1 + runLen pyIsSpace t (p + 1) + w.length)
      constructor <;> omega
    · exact absurd hb hw

theorem matchTripAt_bounds (tl : List Char) (p e : Nat)
    (h : matchTripAt tl p = some e) : p < e ∧ e ≤ tl.length := by
  unfold matchTripAt at h
  split_ifs at h with hb
  obtain ⟨w1, hw1mem, h⟩ := List.exists_of_findSome?_eq_some h
  have hordne : ∀ w ∈ tripOrdinals, w ≠ [] := by decide
  have hw1ne : w1 ≠ [] := hordne w1 hw1mem
  try dsimp only at h
  split_ifs at h with hm1 hws
  obtain ⟨w2, hw2mem, h⟩ := List.exists_of_findSome?_eq_some h
  have hnounne : ∀ w ∈ tripNouns, w ≠ [] := by decide
  have hw2ne : w2 ≠ [] := hnounne w2 hw2mem
  try dsimp only at h
  split_ifs at h with hm2 hcolon
  · simp only [Option.some.injEq] at h
    subst h
    simp only [Bool.and_eq_true, beq_iff_eq, decide_eq_true_eq] at hcolon
    constructor <;> omega
  · simp only [Option.some.injEq] at h
    subst h
    rcases listMatchAt_bound tl _ w2 hm2 with hb2 | hb2
    · have hw1pos : 0 < w1.length := List.length_pos.mpr hw1ne
      have hwspos : runLen pyIsSpace tl (p + w1.length) ≠ 0 := by simpa using hws
      constructor <;> omega
    · exact absurd hb2 hw2ne

theorem sepBuild_props (t : List Char) :
    ∀ (ms : List (Nat × Nat)) (lastEnd : Nat),
      List.Chain' (fun a b : Nat × Nat => a.2 ≤ b.1) ms →
      (∀ m ∈ ms, lastEnd ≤ m.1 ∧ m.1 < m.2 ∧ m.2 ≤ t.length) →
      (∀ s ∈ sepBuild t lastEnd ms,
        lastEnd ≤ s.start ∧ s.start ≤ s.endPos ∧ s.method = "separator" ∧
          s.text = stripChars (sliceL t s.start s.endPos)) ∧
      List.Chain' (fun a b : RawSeg => a.endPos ≤ b.start) (sepBuild t lastEnd ms) := by
  intro ms
  induction ms with
  | nil =>
    intro lastEnd _ _
    unfold sepBuild
    split_ifs with hlt
    · refine ⟨fun s hs => ?_, List.chain'_singleton _⟩
      rcases List.mem_singleton.mp hs with rfl
      exact ⟨Nat.le_refl _, Nat.le_of_lt hlt, rfl, rfl⟩
    · simp
  | cons m rest ih =>
    intro lastEnd hch hm
    obtain ⟨hle, hlt, hlen⟩ := hm m (List.mem_cons_self _ _)
    have hrest : ∀ x ∈ rest, m.2 ≤ x.1 :=
      spans_lower rest m hch (fun x hx => (hm x (List.mem_cons_of_mem _ hx)).2.1)
    have hmrest : ∀ x ∈ rest, m.2 ≤ x.1 ∧ x.1 < x.2 ∧ x.2 ≤ t.length := fun x hx =>
      ⟨hrest x hx, (hm x (List.mem_cons_of_mem _ hx)).2.1,
        (hm x (List.mem_cons_of_mem _ hx)).2.2⟩
    have hchrest : List.Chain' (fun a b : Nat × Nat => a.2 ≤ b.1) rest :=
      (List.chain'_cons'.mp hch).2
    obtain ⟨ihm, ihch⟩ := ih m.2 hchrest hmrest
    unfold sepBuild
    split_ifs with hgt
    · constructor
      · intro s hs
        rcases List.mem_cons.mp hs with rfl | hs
        · exact ⟨Nat.le_refl _, Nat.le_of_lt hgt, rfl, rfl⟩
        · obtain ⟨ha, hb, hc, hd⟩ := ihm s hs
          exact ⟨by omega, hb, hc, hd⟩
      · rw [List.chain'_cons']
        refine ⟨fun y hy => ?_, ihch⟩
        have := (ihm y (List.mem_of_mem_head? hy)).1
        simpa using by omega
    · constructor
      · intro s hs
        obtain ⟨ha, hb, hc, hd⟩ := ihm s hs
        exact ⟨by omega, hb, hc, hd⟩
      · exact ihch

theorem tripBuild_props (t : List Char) :
    ∀ ms : List (Nat × Nat),
      List.Chain' (fun a b : Nat × Nat => a.2 ≤ b.1) ms →
      (∀ m ∈ ms, m.1 < m.2 ∧ m.2 ≤ t.length) →
      (∀ s ∈ tripBuild t ms,
        s.start ≤ s.endPos ∧ s.method = "trip_labels" ∧
          s.text = stripChars (sliceL t s.start s.endPos)) ∧
      List.Chain' (fun a b : RawSeg => a.endPos ≤ b.start) (tripBuild t ms) ∧
      (∀ x ∈ ms.head?, ∀ y ∈ (tripBuild t ms).head?, y.start = x.1) := by
  intro ms
  induction ms with
  | nil => simp [tripBuild]
  | cons m rest ih =>
    intro hch hm
    cases rest with
    | nil =>
      cases m with
      | mk s e =>
        obtain ⟨h1, h2⟩ := hm (s, e) (List.mem_cons_self _ _)
        refine ⟨fun x hx => ?_, by simp [tripBuild], ?_⟩
        · unfold tripBuild at hx
          rcases List.mem_singleton.mp hx with rfl
          refine ⟨by simp; omega, rfl, rfl⟩
        · intro x hx y hy
          simp at hx
          unfold tripBuild at hy
          simp at hy
          subst hx
          subst hy
          simp
    | cons m' rest' =>
      have hch' : List.Chain' (fun a b : Nat × Nat => a.2 ≤ b.1) (m' :: rest') :=
        (List.chain'_cons'.mp hch).2
      have hm' : ∀ x ∈ m' :: rest', x.1 < x.2 ∧ x.2 ≤ t.length := fun x hx =>
        hm x (List.mem_cons_of_mem _ hx)
      obtain ⟨ihm, ihch, ihhead⟩ := ih hch' hm'
      cases m with
      | mk s e =>
        cases m' with
        | mk s' e' =>
          have hse : e ≤ s' := (List.chain'_cons'.mp hch).1 (s', e') rfl
          obtain ⟨hlt, _⟩ := hm (s, e) (List.mem_cons_self _ _)
          refine ⟨?_, ?_, ?_⟩
          · intro x hx
            unfold tripBuild at hx
            rcases List.mem_cons.mp hx with rfl | hx
            · exact ⟨by simp; omega, rfl, rfl⟩
            · exact ihm x hx
          · unfold tripBuild
            rw [List.chain'_cons']
            refine ⟨fun y hy => ?_, ihch⟩
            have hy2 := ihhead (s', e') rfl y hy
            simp [hy2]
          · intro x hx y hy
            simp at hx
            unfold tripBuild at hy
            simp at hy
            subst hx
            subst hy
            simp

theorem numberedLoop_inv :
    ∀ (lines cur : List (List Char)) (curStart : Nat) (inList : Bool) (segs : List RawSeg),
      (∀ s ∈ segs, s.start ≤ s.endPos ∧ s.endPos < curStart ∧ s.method = "numbered_list") →
      List.Chain' (fun a b : RawSeg => a.endPos ≤ b.start) segs →
      (∀ s ∈ (numberedLoop lines cur curStart inList segs).1,
        s.start ≤ s.endPos ∧
          s.endPos < (numberedLoop lines cur curStart inList segs).2.2.1 ∧
          s.method = "numbered_list") ∧
      List.Chain' (fun a b : RawSeg => a.endPos ≤ b.start)
        (numberedLoop lines cur curStart inList segs).1 ∧
      curStart ≤ (numberedLoop lines cur curStart inList segs).2.2.1 := by
  intro lines
  induction lines with
  | nil =>
    intro cur curStart inList segs hsegs hch
    unfold numberedLoop
    exact ⟨fun s hs => (hsegs s hs), hch, Nat.le_refl _⟩
  | cons line rest ih =>
    intro cur curStart inList segs hsegs hch
    unfold numberedLoop
    split_ifs with hmatch hsave
    · -- save current segment, start a new one
      dsimp only
      have hstep := ih [line] (curStart + (joinNl cur).length + 1) true
        (segs ++ [⟨stripChars (joinNl cur), curStart, curStart + (joinNl cur).length,
          "numbered_list"⟩])
        (by
          intro s hs
          rcases List.mem_append.mp hs with hs | hs
          · obtain ⟨h1, h2, h3⟩ := hsegs s hs
            exact ⟨h1, by omega, h3⟩
          · rcases List.mem_singleton.mp hs with rfl
            exact ⟨by simp, by simp, rfl⟩)
        (by
          rw [List.chain'_append]
          refine ⟨hch, List.chain'_singleton _, ?_⟩
          intro x hx y hy
          have hx2 := (hsegs x (List.mem_of_mem_getLast? hx)).2.1
          rcases List.mem_singleton.mp (by simpa using hy) with rfl
          simp
          omega)
      refine ⟨hstep.1, hstep.2.1, ?_⟩
      have := hstep.2.2
      omega
    · exact ih [line] curStart true segs hsegs hch
    · exact ih (cur ++ [line]) curStart inList segs hsegs hch

theorem lowerL_length (t : List Char) : (lowerL t).length = t.length :=
  List.length_map t Char.toLower

theorem split_by_numbered_lists_props (text : List Char) :
    (∀ s ∈ split_by_numbered_lists text,
      s.start ≤ s.endPos ∧ s.method = "numbered_list") ∧
    List.Chain' (fun a b : RawSeg => a.endPos ≤ b.start) (split_by_numbered_lists text) := by
  unfold split_by_numbered_lists
  have h := numberedLoop_inv (splitNl text) [] 0 false [] (by simp) (by simp)
  dsimp only
  split_ifs with hfin hlen hlen
  · -- final segment appended, more than one segment
    constructor
    · intro s hs
      rcases List.mem_append.mp hs with hs | hs
      · obtain ⟨h1, _, h3⟩ := h.1 s hs
        exact ⟨h1, h3⟩
      · rcases List.mem_singleton.mp hs with rfl
        exact ⟨by simp, rfl⟩
    · rw [List.chain'_append]
      refine ⟨h.2.1, List.chain'_singleton _, ?_⟩
      intro x hx y hy
      have hx2 := (h.1 x (List.mem_of_mem_getLast? hx)).2.1
      rcases List.mem_singleton.mp (by simpa using hy) with rfl
      simp
      omega
  · simp
  · exact ⟨fun s hs => ⟨(h.1 s hs).1, (h.1 s hs).2.2⟩, h.2.1⟩
  · simp

theorem sepPatternLoop_props (t : List Char) :
    ∀ ws : List (List Char), (∀ w ∈ ws, w ≠ []) →
      (∀ s ∈ sepPatternLoop t (lowerL t) ws,
        s.start ≤ s.endPos ∧ s.method = "separator" ∧
          s.text = stripChars (sliceL t s.start s.endPos)) ∧
      List.Chain' (fun a b : RawSeg => a.endPos ≤ b.start)
        (sepPatternLoop t (lowerL t) ws) := by
  intro ws
  induction ws with
  | nil => intro _; simp [sepPatternLoop]
  | cons w rest ih =>
    intro hws
    have hwne : w ≠ [] := hws w (List.mem_cons_self _ _)
    have hrest := ih (fun x hx => hws x (List.mem_cons_of_mem _ hx))
    unfold sepPatternLoop
    dsimp only
    have hspan := finditer_spans (matchSepAt w (lowerL t)) (lowerL t).length
      (fun p e he => matchSepAt_bounds w (lowerL t) hwne p e he)
      ((lowerL t).length + 1) 0
    have hms : ∀ m ∈ finditerL
        (fun p => (matchSepAt w (lowerL t) p).map (fun e => ((p, e), e)))
        (lowerL t).length, (0 : Nat) ≤ m.1 ∧ m.1 < m.2 ∧ m.2 ≤ t.length := by
      intro m hm
      have := hspan.1 m hm
      rw [lowerL_length] at this
      exact this
    have hbuild := sepBuild_props t _ 0 hspan.2 hms
    split_ifs with hne hlen
    · exact ⟨fun s hs => ⟨(hbuild.1 s hs).2.1, (hbuild.1 s hs).2.2.1,
        (hbuild.1 s hs).2.2.2⟩, hbuild.2⟩
    · exact hrest
    · exact hrest

theorem split_by_separators_props (text : List Char) :
    (∀ s ∈ split_by_separators text,
      s.start ≤ s.endPos ∧ s.method = "separator" ∧
        s.text = stripChars (sliceL text s.start s.endPos)) ∧
    List.Chain' (fun a b : RawSeg => a.endPos ≤ b.start) (split_by_separators text) := by
  unfold split_by_separators
  exact sepPatternLoop_props text _ (by decide)

theorem split_by_trip_labels_props (text : List Char) :
    (∀ s ∈ split_by_trip_labels text,
      s.start ≤ s.endPos ∧ s.method = "trip_labels" ∧
        s.text = stripChars (sliceL text s.start s.endPos)) ∧
    List.Chain' (fun a b : RawSeg => a.endPos ≤ b.start) (split_by_trip_labels text) := by
  unfold split_by_trip_labels
  dsimp only
  have hspan := finditer_spans (matchTripAt (lowerL text)) (lowerL text).length
    (fun p e he => matchTripAt_bounds (lowerL text) p e he)
    ((lowerL text).length + 1) 0
  have hms : ∀ m ∈ finditerL
      (fun p => (matchTripAt (lowerL text) p).map (fun e => ((p, e), e)))
      (lowerL text).length, m.1 < m.2 ∧ m.2 ≤ text.length := by
    intro m hm
    have := hspan.1 m hm
    rw [lowerL_length] at this
    exact ⟨this.2.1, this.2.2⟩
  have hbuild := tripBuild_props text _ hspan.2 hms
  split_ifs with hlen
  · exact ⟨hbuild.1, hbuild.2.1⟩
  · simp

theorem sliceL_full (t : List Char) : sliceL t 0 t.length = t := by
  simp [sliceL]

theorem segment_by_rules_props (text : List Char) :
    (∀ s ∈ segment_by_rules text,
      s.start ≤ s.endPos ∧
        (s.method ≠ "numbered_list" → s.text = stripChars (sliceL text s.start s.endPos))) ∧
    List.Chain' (fun a b : RawSeg => a.endPos ≤ b.start) (segment_by_rules text) := by
  unfold segment_by_rules
  dsimp only
  have hn := split_by_numbered_lists_props text
  have hsep := split_by_separators_props text
  have htrip := split_by_trip_labels_props text
  split_ifs with h1 h2 h3
  · refine ⟨fun s hs => ⟨(hn.1 s hs).1, fun hne => absurd (hn.1 s hs).2 hne⟩, hn.2⟩
  · exact ⟨fun s hs => ⟨(hsep.1 s hs).1, fun _ => (hsep.1 s hs).2.2⟩, hsep.2⟩
  · exact ⟨fun s hs => ⟨(htrip.1 s hs).1, fun _ => (htrip.1 s hs).2.2⟩, htrip.2⟩
  · simp

/-- C5, amended: for every text and intent, the segments returned by
`EmailSegmenter.segment` are in order and pairwise non-overlapping
(each segment's `end_char` is at most the next segment's `start_char`,
and `start_char ≤ end_char` in each); for separator, trip-label and
default segments the offsets delimit the segment's content up to
whitespace stripping.  Numbered-list offsets are computed from
accumulated segment lengths and misalign when text precedes the first
numbered item, and dropped text (preamble, separators) belongs to no
segment, so the segments need not cover the text. -/
theorem C5_amended (text : List Char) (intent : String) :
    (∀ s ∈ EmailSegmenter.segment text intent, s.start_char ≤ s.end_char) ∧
    List.Chain' (fun a b : OutSeg => a.end_char ≤ b.start_char)
      (EmailSegmenter.segment text intent) ∧
    (∀ s ∈ EmailSegmenter.segment text intent, s.method ≠ "numbered_list" →
      stripChars s.text = stripChars (sliceL text s.start_char s.end_char)) := by
  unfold EmailSegmenter.segment
  split_ifs with hint
  · simp
  · dsimp only
    have hrules := segment_by_rules_props text
    set segs0 := segment_by_rules text with hsegs0
    set segs : List RawSeg :=
      if segs0.isEmpty then [⟨text, 0, text.length, "default"⟩] else segs0 with hsegs
    have hprops : (∀ s ∈ segs, s.start ≤ s.endPos ∧
        (s.method ≠ "numbered_list" →
          stripChars s.text = stripChars (sliceL text s.start s.endPos))) ∧
        List.Chain' (fun a b : RawSeg => a.endPos ≤ b.start) segs := by
      rw [hsegs]
      split_ifs with hemp
      · constructor
        · intro s hs
          rcases List.mem_singleton.mp hs with rfl
          refine ⟨by simp, fun _ => ?_⟩
          rw [sliceL_full]
        · exact List.chain'_singleton _
      · refine ⟨fun s hs => ⟨(hrules.1 s hs).1, fun hne => ?_⟩, hrules.2⟩
        rw [(hrules.1 s hs).2 hne]
        exact stripChars_idem _
    have hmem : ∀ x ∈ segs.enum, x.2 ∈ segs := by
      intro x hx
      have : x.2 ∈ segs.enum.map Prod.snd := List.mem_map_of_mem Prod.snd hx
      rwa [List.enum_map_snd] at this
    refine ⟨?_, ?_, ?_⟩
    · intro s hs
      obtain ⟨x, hx, rfl⟩ := List.mem_map.mp hs
      exact (hprops.1 x.2 (hmem x hx)).1
    · rw [List.chain'_map]
      have h3 : List.Chain' (fun a b : RawSeg => a.endPos ≤ b.start)
          (segs.enum.map Prod.snd) ↔
          List.Chain' (fun a b : Nat × RawSeg => a.2.endPos ≤ b.2.start) segs.enum :=
        List.chain'_map Prod.snd
      rw [List.enum_map_snd] at h3
      exact h3.mp hprops.2
    · intro s hs hne
      obtain ⟨x, hx, rfl⟩ := List.mem_map.mp hs
      exact (hprops.1 x.2 (hmem x hx)).2 hne

/-- C5, counterexample: on the text "x\n1. a\n2. b" (a line of text
before the first numbered item) the first returned segment carries
offsets 0..4, but the characters at positions 0..4 of the text are
"x", a newline and "1." - the offsets do not delimit the segment's
content "1. a", which actually sits at positions 2..6. -/
theorem C5_counterexample :
    (EmailSegmenter.segment "x\n1. a\n2. b".toList "booking_request").head? =
      some ⟨0, "1. a".toList, 0, 4, "numbered_list"⟩ ∧
    stripChars (sliceL "x\n1. a\n2. b".toList 0 4) ≠ "1. a".toList := by
  refine ⟨by rfl, by decide⟩

/-- C5, witness for the amended theorem: the first separator segment of
"I need a room.\nAlso, a suite please" delimits its content. -/
theorem C5_witness :
    stripChars ("I need a room.".toList) =
      stripChars (sliceL "I need a room.\nAlso, a suite please".toList 0 14) := by
  have h := C5_amended "I need a room.\nAlso, a suite please".toList "booking_request"
  exact h.2.2 ⟨0, "I need a room.".toList, 0, 14, "separator"⟩ (by decide) (by decide)

theorem splitNl_cons_eq (c : Char) (rest : List Char) :
    splitNl (c :: rest) =
      if c = '\n' then [] :: splitNl rest
      else
        match splitNl rest with
        | [] => [[c]]
        | line :: ls => (c :: line) :: ls := rfl

theorem splitNl_ne_nil (l : List Char) : splitNl l ≠ [] := by
  cases l with
  | nil => simp [splitNl]
  | cons c rest =>
    rw [splitNl_cons_eq]
    split_ifs with h
    · simp
    · cases h2 : splitNl rest with
      | nil => simp
      | cons line ls => simp

theorem splitNl_no_newline (l : List Char) (h : '\n' ∉ l) : splitNl l = [l] := by
  induction l with
  | nil => rfl
  | cons c rest ih =>
    have hc : c ≠ '\n' := fun he => h (he ▸ List.mem_cons_self _ _)
    have hrest : '\n' ∉ rest := fun hm => h (List.mem_cons_of_mem _ hm)
    rw [splitNl_cons_eq, if_neg hc, ih hrest]

theorem splitNl_cons_newline (rest : List Char) :
    splitNl ('\n' :: rest) = [] :: splitNl rest := by
  rw [splitNl_cons_eq, if_pos rfl]

theorem splitNl_append_line (line rest : List Char) (h : '\n' ∉ line) :
    splitNl (line ++ '\n' :: rest) = line :: splitNl rest := by
  induction line with
  | nil => simp [splitNl_cons_newline]
  | cons c cs ih =>
    have hc : c ≠ '\n' := fun he => h (he ▸ List.mem_cons_self _ _)
    have hcs : '\n' ∉ cs := fun hm => h (List.mem_cons_of_mem _ hm)
    show splitNl (c :: (cs ++ '\n' :: rest)) = (c :: cs) :: splitNl rest
    rw [splitNl_cons_eq, if_neg hc, ih hcs]

theorem joinNl_nil : joinNl [] = [] := rfl

theorem joinNl_single (a : List Char) : joinNl [a] = a := by
  simp [joinNl, List.intercalate]

theorem joinNl_cons2 (a b : List Char) (ls : List (List Char)) :
    joinNl (a :: b :: ls) = a ++ '\n' :: joinNl (b :: ls) := by
  simp [joinNl, List.intercalate]

theorem joinNl_cons_of_ne_nil (a : List Char) (ls : List (List Char)) (h : ls ≠ []) :
    joinNl (a :: ls) = a ++ '\n' :: joinNl ls := by
  cases ls with
  | nil => exact absurd rfl h
  | cons b ls' => exact joinNl_cons2 a b ls'

theorem joinNl_splitNl (l : List Char) : joinNl (splitNl l) = l := by
  induction l with
  | nil => simp [splitNl, joinNl, List.intercalate]
  | cons c rest ih =>
    rw [splitNl_cons_eq]
    split_ifs with h
    · subst h
      rw [joinNl_cons_of_ne_nil _ _ (splitNl_ne_nil rest), ih]
      simp
    · cases h2 : splitNl rest with
      | nil => exact absurd h2 (splitNl_ne_nil rest)
      | cons line ls =>
        rw [h2] at ih
        cases ls with
        | nil =>
          rw [joinNl_single]
          rw [joinNl_single] at ih
          rw [ih]
        | cons b ls' =>
          rw [joinNl_cons2]
          rw [joinNl_cons2] at ih
          simp [ih]

theorem splitNl_mem_no_newline (l : List Char) :
    ∀ line ∈ splitNl l, '\n' ∉ line := by
  induction l with
  | nil => intro line hl; simp [splitNl] at hl; simp [hl]
  | cons c rest ih =>
    intro line hl
    rw [splitNl_cons_eq] at hl
    split_ifs at hl with h
    · rcases List.mem_cons.mp hl with rfl | hl
      · simp
      · exact ih line hl
    · cases h2 : splitNl rest with
      | nil => exact absurd h2 (splitNl_ne_nil rest)
      | cons line0 ls =>
        rw [h2] at hl
        rcases List.mem_cons.mp hl with rfl | hl
        · intro hmem
          rcases List.mem_cons.mp hmem with he | hmem
          · exact h he.symm
          · exact ih line0 (h2 ▸ List.mem_cons_self _ _) hmem
        · exact ih line (h2 ▸ List.mem_cons_of_mem _ hl)

theorem splitNl_mem_infix (l : List Char) :
    ∀ line ∈ splitNl l, line <:+: l := by
  induction l with
  | nil => intro line hl; simp [splitNl] at hl; simp [hl]
  | cons c rest ih =>
    intro line hl
    rw [splitNl_cons_eq] at hl
    split_ifs at hl with h
    · rcases List.mem_cons.mp hl with rfl | hl
      · exact List.nil_infix
      · exact List.infix_cons (ih line hl)
    · cases h2 : splitNl rest with
      | nil => exact absurd h2 (splitNl_ne_nil rest)
      | cons line0 ls =>
        rw [h2] at hl
        rcases List.mem_cons.mp hl with rfl | hl
        · -- c :: line0 is a prefix of c :: rest since line0 is a prefix of rest
          have h0 : line0 <+: rest := by
            have hj := joinNl_splitNl rest
            rw [h2] at hj
            cases ls with
            | nil =>
              rw [joinNl_single] at hj
              exact hj ▸ List.prefix_refl _
            | cons b ls' =>
              rw [joinNl_cons2] at hj
              exact ⟨'\n' :: joinNl (b :: ls'), hj⟩
          exact List.IsPrefix.isInfix ((List.cons_prefix_cons).mpr ⟨rfl, h0⟩)
        · exact List.infix_cons (ih line (h2 ▸ List.mem_cons_of_mem _ hl))

theorem collapseSpaceRuns_head (d : Char) (rest : List Char) :
    (collapseSpaceRuns (d :: rest)).head? = some (if isNBSpace d then ' ' else d) := by
  induction rest generalizing d with
  | nil => by_cases h : isNBSpace d = true <;> simp [collapseSpaceRuns, h]
  | cons e rest' ih =>
    by_cases h : (isNBSpace d && isNBSpace e) = true
    · rw [show collapseSpaceRuns (d :: e :: rest') = collapseSpaceRuns (e :: rest') from by
        simp [collapseSpaceRuns, h]]
      rw [ih e]
      simp only [Bool.and_eq_true] at h
      simp [h.1, h.2]
    · rw [show collapseSpaceRuns (d :: e :: rest') =
        (if isNBSpace d then ' ' else d) :: collapseSpaceRuns (e :: rest') from by
          simp [collapseSpaceRuns, h]]
      simp

theorem benign_of_not_nb (c : Char) (h : isNBSpace c = false) : benignChar c = true := by
  unfold isNBSpace at h
  unfold benignChar
  by_cases hp : pyIsSpace c = true
  · rw [hp] at h
    simp at h
    simp [h]
  · have hp2 : pyIsSpace c = false := by simpa using hp
    simp [hp2]

theorem space_of_nb_benign (c : Char) (h1 : isNBSpace c = true)
    (h2 : benignChar c = true) : c = ' ' := by
  unfold isNBSpace at h1
  unfold benignChar at h2
  simp only [Bool.and_eq_true, decide_eq_true_eq] at h1
  simp [h1.1] at h2
  rcases h2 with h2 | h2
  · exact h2
  · exact absurd h2 h1.2

theorem collapseSpaceRuns_cons2 (d e : Char) (r : List Char) :
    collapseSpaceRuns (d :: e :: r) =
      if (isNBSpace d && isNBSpace e) = true then collapseSpaceRuns (e :: r)
      else (if isNBSpace d then ' ' else d) :: collapseSpaceRuns (e :: r) := by
  rfl

theorem collapseSpaceRuns_benign (l : List Char) :
    ∀ c ∈ collapseSpaceRuns l, benignChar c = true := by
  induction l with
  | nil => simp [collapseSpaceRuns]
  | cons d rest ih =>
    cases rest with
    | nil =>
      intro c hc
      by_cases h : isNBSpace d = true
      · simp [collapseSpaceRuns, h] at hc
        subst hc
        decide
      · simp [collapseSpaceRuns, h] at hc
        subst hc
        exact benign_of_not_nb c (by simpa using h)
    | cons e rest' =>
      intro c hc
      rw [collapseSpaceRuns_cons2] at hc
      split_ifs at hc with h hd
      · exact ih c hc
      · rcases List.mem_cons.mp hc with rfl | hc
        · decide
        · exact ih c hc
      · rcases List.mem_cons.mp hc with rfl | hc
        · exact benign_of_not_nb c (by simpa using hd)
        · exact ih c hc

theorem collapseSpaceRuns_chain (l : List Char) :
    List.Chain' (fun a b => (!(isNBSpace a && isNBSpace b)) = true) (collapseSpaceRuns l) := by
  induction l with
  | nil => simp [collapseSpaceRuns]
  | cons d rest ih =>
    cases rest with
    | nil =>
      by_cases h : isNBSpace d = true <;> simp [collapseSpaceRuns, h]
    | cons e rest' =>
      rw [collapseSpaceRuns_cons2]
      split_ifs with h hd
      · exact ih
      · rw [List.chain'_cons']
        refine ⟨?_, ih⟩
        intro y hy
        rw [collapseSpaceRuns_head e rest'] at hy
        simp only [Option.mem_def, Option.some.injEq] at hy
        subst hy
        have hne : isNBSpace e = false := by
          rcases Bool.and_eq_false_iff.mp (by simpa using h) with h2 | h2
          · exact absurd hd (by simp [h2])
          · exact h2
        rw [if_neg (by simp [hne])]
        simp [hne]
      · rw [List.chain'_cons']
        refine ⟨?_, ih⟩
        intro y hy
        rw [collapseSpaceRuns_head e rest'] at hy
        simp only [Option.mem_def, Option.some.injEq] at hy
        subst hy
        have hd2 : isNBSpace d = false := by simpa using hd
        simp [hd2]

theorem collapseSpaceRuns_eq_self (l : List Char)
    (hb : ∀ c ∈ l, benignChar c = true)
    (hch : List.Chain' (fun a b => okPair a b = true) l) :
    collapseSpaceRuns l = l := by
  induction l with
  | nil => rfl
  | cons d rest ih =>
    cases rest with
    | nil =>
      by_cases h : isNBSpace d = true
      · have := space_of_nb_benign d h (hb d (List.mem_cons_self _ _))
        simp [collapseSpaceRuns, h, this]
      · simp [collapseSpaceRuns, h]
    | cons e rest' =>
      have hbtail : ∀ c ∈ e :: rest', benignChar c = true := fun c hc =>
        hb c (List.mem_cons_of_mem _ hc)
      have hchtail : List.Chain' (fun a b => okPair a b = true) (e :: rest') :=
        (List.chain'_cons'.mp hch).2
      rw [collapseSpaceRuns_cons2]
      split_ifs with h hd
      · exfalso
        simp only [Bool.and_eq_true] at h
        have hds := space_of_nb_benign d h.1 (hb d (List.mem_cons_self _ _))
        have hes := space_of_nb_benign e h.2 (hbtail e (List.mem_cons_self _ _))
        have hok := (List.chain'_cons'.mp hch).1 e rfl
        rw [hds, hes] at hok
        simp [okPair] at hok
      · rw [ih hbtail hchtail, space_of_nb_benign d hd (hb d (List.mem_cons_self _ _))]
      · rw [ih hbtail hchtail]

theorem collapseNlAux_nil (maxN pending : Nat) :
    collapseNlAux maxN [] pending =
      List.replicate (if maxN < pending then maxN else pending) '\n' := rfl

theorem collapseNlAux_cons (maxN : Nat) (d : Char) (rest : List Char) (pending : Nat) :
    collapseNlAux maxN (d :: rest) pending =
      if d = '\n' then collapseNlAux maxN rest (pending + 1)
      else List.replicate (if maxN < pending then maxN else pending) '\n' ++
        d :: collapseNlAux maxN rest 0 := rfl

theorem collapseNlAux_mem (maxN : Nat) :
    ∀ (l : List Char) (pending : Nat) (c : Char),
      c ∈ collapseNlAux maxN l pending → c = '\n' ∨ c ∈ l := by
  intro l
  induction l with
  | nil =>
    intro pending c hc
    rw [collapseNlAux_nil] at hc
    exact Or.inl (List.eq_of_mem_replicate hc)
  | cons d rest ih =>
    intro pending c hc
    rw [collapseNlAux_cons] at hc
    by_cases h : d = '\n'
    · rw [if_pos h] at hc
      rcases ih (pending + 1) c hc with h1 | h1
      · exact Or.inl h1
      · exact Or.inr (List.mem_cons_of_mem _ h1)
    · rw [if_neg h] at hc
      rcases List.mem_append.mp hc with h1 | h1
      · exact Or.inl (List.eq_of_mem_replicate h1)
      · rcases List.mem_cons.mp h1 with rfl | h1
        · exact Or.inr (List.mem_cons_self _ _)
        · rcases ih 0 c h1 with h2 | h2
          · exact Or.inl h2
          · exact Or.inr (List.mem_cons_of_mem _ h2)

theorem collapseNlAux_head_pos (maxN : Nat) (hmax : 1 ≤ maxN) :
    ∀ (l : List Char) (pending : Nat), 1 ≤ pending →
      (collapseNlAux maxN l pending).head? = some '\n' := by
  intro l
  induction l with
  | nil =>
    intro pending hp
    rw [collapseNlAux_nil, List.head?_replicate]
    rw [if_neg (by split_ifs <;> omega)]
  | cons d rest ih =>
    intro pending hp
    rw [collapseNlAux_cons]
    by_cases h : d = '\n'
    · rw [if_pos h]
      exact ih (pending + 1) (by omega)
    · rw [if_neg h]
      have hk : (if maxN < pending then maxN else pending) ≠ 0 := by
        split_ifs <;> omega
      cases hkv : (if maxN < pending then maxN else pending) with
      | zero => exact absurd hkv hk
      | succ k => rw [List.replicate_succ]; rfl

theorem collapseNlAux_head_zero (maxN : Nat) (hmax : 1 ≤ maxN) (l : List Char) :
    (collapseNlAux maxN l 0).head? = l.head? := by
  cases l with
  | nil => rfl
  | cons d rest =>
    rw [collapseNlAux_cons]
    by_cases h : d = '\n'
    · rw [if_pos h, collapseNlAux_head_pos maxN hmax rest 1 (Nat.le_refl _), h]
      rfl
    · rw [if_neg h, if_neg (Nat.not_lt_zero maxN)]
      rfl

theorem collapseNlAux_getLast (maxN : Nat) :
    ∀ (l : List Char) (pending : Nat) (c : Char),
      l.getLast? = some c → c ≠ '\n' →
      (collapseNlAux maxN l pending).getLast? = some c := by
  intro l
  induction l with
  | nil => intro pending c hc _; simp at hc
  | cons d rest ih =>
    intro pending c hc hne
    cases rest with
    | nil =>
      simp at hc
      subst hc
      rw [collapseNlAux_cons, if_neg hne, collapseNlAux_nil,
        if_neg (Nat.not_lt_zero maxN)]
      simp
    | cons e rest' =>
      have hc' : (e :: rest').getLast? = some c := by
        rw [List.getLast?_cons_cons] at hc
        exact hc
      rw [collapseNlAux_cons]
      by_cases hd : d = '\n'
      · rw [if_pos hd]
        exact ih (pending + 1) c hc' hne
      · rw [if_neg hd]
        have hM := ih 0 c hc' hne
        cases hMv : collapseNlAux maxN (e :: rest') 0 with
        | nil => rw [hMv] at hM; simp at hM
        | cons m M' =>
          rw [hMv] at hM
          rw [List.getLast?_append, List.getLast?_cons_cons, hM]
          rfl

theorem collapseNlAux_chain_noNBNB (maxN : Nat) (hmax : 1 ≤ maxN) :
    ∀ (l : List Char) (pending : Nat),
      List.Chain' (fun a b => (!(isNBSpace a && isNBSpace b)) = true) l →
      List.Chain' (fun a b => (!(isNBSpace a && isNBSpace b)) = true)
        (collapseNlAux maxN l pending) := by
  intro l
  induction l with
  | nil =>
    intro pending _
    rw [collapseNlAux_nil]
    exact List.chain'_replicate_of_rel _ (by decide)
  | cons d rest ih =>
    intro pending hch
    rw [collapseNlAux_cons]
    by_cases h : d = '\n'
    · rw [if_pos h]
      exact ih (pending + 1) (List.Chain'.tail hch)
    · rw [if_neg h, List.chain'_append]
      refine ⟨List.chain'_replicate_of_rel _ (by decide), ?_, ?_⟩
      · rw [List.chain'_cons']
        refine ⟨?_, ih 0 (List.Chain'.tail hch)⟩
        intro y hy
        rw [collapseNlAux_head_zero maxN hmax rest] at hy
        exact (List.chain'_cons'.mp hch).1 y hy
      · intro a ha b hb
        have ha' : a = '\n' :=
          List.eq_of_mem_replicate (List.mem_of_mem_getLast? ha)
        subst ha'
        have hnb : isNBSpace '\n' = false := by decide
        simp [hnb]

theorem collapseNlAux_chain_okPair (maxN : Nat) (hmax : 1 ≤ maxN) :
    ∀ (l : List Char) (pending : Nat),
      List.Chain' (fun a b => okPair a b = true) l →
      (pending ≠ 0 → l.head? ≠ some ' ') →
      List.Chain' (fun a b => okPair a b = true) (collapseNlAux maxN l pending) := by
  intro l
  induction l with
  | nil =>
    intro pending _ _
    rw [collapseNlAux_nil]
    exact List.chain'_replicate_of_rel _ (by decide)
  | cons d rest ih =>
    intro pending hch hhd
    rw [collapseNlAux_cons]
    by_cases h : d = '\n'
    · rw [if_pos h]
      refine ih (pending + 1) (List.Chain'.tail hch) ?_
      intro _ hsp
      cases rest with
      | nil => simp at hsp
      | cons e rest' =>
        simp only [List.head?_cons, Option.some.injEq] at hsp
        have hpair := (List.chain'_cons'.mp hch).1 e rfl
        rw [h, hsp] at hpair
        simp [okPair] at hpair
    · rw [if_neg h, List.chain'_append]
      refine ⟨List.chain'_replicate_of_rel _ (by decide), ?_, ?_⟩
      · rw [List.chain'_cons']
        refine ⟨?_, ih 0 (List.Chain'.tail hch) (fun hz => absurd rfl hz)⟩
        intro y hy
        rw [collapseNlAux_head_zero maxN hmax rest] at hy
        exact (List.chain'_cons'.mp hch).1 y hy
      · intro a ha b hb
        have ha' : a = '\n' :=
          List.eq_of_mem_replicate (List.mem_of_mem_getLast? ha)
        subst ha'
        have hk : (if maxN < pending then maxN else pending) ≠ 0 := by
          intro hz
          rw [hz] at ha
          simp at ha
        have hpend : pending ≠ 0 := by
          intro hz
          rw [hz, if_neg (Nat.not_lt_zero maxN)] at hk
          exact hk rfl
        have hd' : d ≠ ' ' := by
          intro hsp
          exact hhd hpend (by rw [hsp]; rfl)
        rw [List.head?_cons] at hb
        simp only [Option.mem_def, Option.some.injEq] at hb
        subst hb
        simp [okPair, hd']

theorem stripChars_infix_self (l : List Char) : stripChars l <:+: l := by
  rw [stripChars_eq_rdrop]
  exact List.IsInfix.trans
    (List.IsPrefix.isInfix (List.rdropWhile_prefix pyIsSpace (l.dropWhile pyIsSpace)))
    (List.IsSuffix.isInfix (List.dropWhile_suffix pyIsSpace))

theorem benign_not_ws (c : Char) (hb : benignChar c = true) (h1 : c ≠ '\n')
    (h2 : c ≠ ' ') : pyIsSpace c = false := by
  unfold benignChar at hb
  simp only [Bool.or_eq_true, Bool.not_eq_true', beq_iff_eq] at hb
  rcases hb with (hb | hb) | hb
  · exact hb
  · exact absurd hb h2
  · exact absurd hb h1

theorem okPair_nl_left (y : Char) (hy : y ≠ ' ') : okPair '\n' y = true := by
  unfold okPair
  have h1 : ('\n' == ' ') = false := by decide
  have h2 : (y == ' ') = false := by simp [hy]
  rw [h1, h2]
  simp

theorem okPair_nl_right (x : Char) (hx : x ≠ ' ') : okPair x '\n' = true := by
  unfold okPair
  have h1 : ('\n' == ' ') = false := by decide
  have h2 : ('\n' == '\n') = true := by decide
  have h3 : (x == ' ') = false := by simp [hx]
  rw [h1, h2, h3]
  simp

theorem okPair_of_noNBNB (a b : Char) (ha : a ≠ '\n') (hb : b ≠ '\n')
    (h : (!(isNBSpace a && isNBSpace b)) = true) : okPair a b = true := by
  unfold okPair
  have ha' : (a == '\n') = false := by simp [ha]
  have hb' : (b == '\n') = false := by simp [hb]
  rw [ha', hb']
  simp only [Bool.and_false, Bool.false_and, Bool.not_false, Bool.and_true, Bool.true_and]
  by_cases hsp : a = ' '
  · by_cases hsp2 : b = ' '
    · exfalso
      rw [hsp, hsp2] at h
      exact absurd h (by decide)
    · have hb2 : (b == ' ') = false := by simp [hsp2]
      simp [hb2]
  · have ha2 : (a == ' ') = false := by simp [hsp]
    simp [ha2]

theorem chain_okPair_of_noNBNB :
    ∀ (l : List Char), '\n' ∉ l →
      List.Chain' (fun a b => (!(isNBSpace a && isNBSpace b)) = true) l →
      List.Chain' (fun a b => okPair a b = true) l := by
  intro l
  induction l with
  | nil => intro _ _; exact List.chain'_nil
  | cons a r ih =>
    intro hnl hch
    rw [List.chain'_cons'] at hch ⊢
    refine ⟨?_, ih (fun hm => hnl (List.mem_cons_of_mem _ hm)) hch.2⟩
    intro y hy
    refine okPair_of_noNBNB a y ?_ ?_ (hch.1 y hy)
    · intro he
      exact hnl (he ▸ List.mem_cons_self _ _)
    · intro he
      exact hnl (List.mem_cons_of_mem _ (he ▸ List.mem_of_mem_head? hy))

theorem mem_split_first (l : List Char) (hnl : '\n' ∈ l) :
    ∃ A R, l = A ++ '\n' :: R ∧ '\n' ∉ A := by
  induction l with
  | nil => simp at hnl
  | cons c rest ih =>
    by_cases hc : c = '\n'
    · exact ⟨[], rest, by rw [hc]; rfl, by simp⟩
    · have hrest : '\n' ∈ rest := by
        rcases List.mem_cons.mp hnl with h | h
        · exact absurd h.symm hc
        · exact h
      obtain ⟨A, R, hd, hA⟩ := ih hrest
      refine ⟨c :: A, R, by rw [hd]; rfl, ?_⟩
      intro hm
      rcases List.mem_cons.mp hm with h | h
      · exact hc h.symm
      · exact hA h

theorem stripLines_nil : stripLines [] = [] := rfl

theorem stripLines_no_newline (l : List Char) (hnl : '\n' ∉ l) :
    stripLines l = stripChars l := by
  unfold stripLines
  rw [splitNl_no_newline l hnl, List.map_cons, List.map_nil, joinNl_single]

theorem stripLines_decomp (A R : List Char) (hA : '\n' ∉ A) :
    stripLines (A ++ '\n' :: R) = stripChars A ++ '\n' :: stripLines R := by
  have hne : (splitNl R).map stripChars ≠ [] := by
    cases hsp : splitNl R with
    | nil => exact absurd hsp (splitNl_ne_nil R)
    | cons a as => simp
  unfold stripLines
  rw [splitNl_append_line A R hA, List.map_cons, joinNl_cons_of_ne_nil _ _ hne]

theorem stripLines_eq_self_aux :
    ∀ (n : Nat) (l : List Char), l.length ≤ n →
      (∀ c ∈ l, benignChar c = true) →
      List.Chain' (fun a b => okPair a b = true) l →
      l.head? ≠ some ' ' → l.getLast? ≠ some ' ' →
      stripLines l = l := by
  intro n
  induction n with
  | zero =>
    intro l hlen _ _ _ _
    rw [List.length_eq_zero.mp (Nat.le_zero.mp hlen)]
    exact stripLines_nil
  | succ n ih =>
    intro l hlen hb hch hhd hlast
    by_cases hnl : '\n' ∈ l
    · obtain ⟨A, R, hdecomp, hA⟩ := mem_split_first l hnl
      subst hdecomp
      obtain ⟨chA, chNR, hbound⟩ := List.chain'_append.mp hch
      have hstripA : stripChars A = A := by
        apply stripChars_eq_self
        · intro c hc
          have hcm : c ∈ A := List.mem_of_mem_head? hc
          refine benign_not_ws c (hb c (List.mem_append_left _ hcm)) ?_ ?_
          · intro he
            exact hA (he ▸ hcm)
          · intro he
            apply hhd
            rw [List.head?_append_of_ne_nil A (by intro hz; rw [hz] at hc; simp at hc),
              hc, he]
        · intro c hc
          have hcm : c ∈ A := List.mem_of_mem_getLast? hc
          refine benign_not_ws c (hb c (List.mem_append_left _ hcm)) ?_ ?_
          · intro he
            exact hA (he ▸ hcm)
          · intro he
            have hok := hbound c hc '\n' rfl
            rw [he] at hok
            exact absurd hok (by decide)
      have hR : stripLines R = R := by
        refine ih R ?_ ?_ ?_ ?_ ?_
        · rw [List.length_append, List.length_cons] at hlen
          omega
        · intro c hc
          exact hb c (List.mem_append_right _ (List.mem_cons_of_mem _ hc))
        · exact (List.chain'_cons'.mp chNR).2
        · intro heq
          have hok := (List.chain'_cons'.mp chNR).1 ' ' heq
          exact absurd hok (by decide)
        · intro heq
          apply hlast
          cases R with
          | nil => simp at heq
          | cons r R' =>
            rw [List.getLast?_append, List.getLast?_cons_cons, heq]
            rfl
      rw [stripLines_decomp A R hA, hstripA, hR]
    · rw [stripLines_no_newline l hnl]
      apply stripChars_eq_self
      · intro c hc
        refine benign_not_ws c (hb c (List.mem_of_mem_head? hc)) ?_ ?_
        · intro he
          exact hnl (he ▸ List.mem_of_mem_head? hc)
        · intro he
          exact hhd (he ▸ hc)
      · intro c hc
        refine benign_not_ws c (hb c (List.mem_of_mem_getLast? hc)) ?_ ?_
        · intro he
          exact hnl (he ▸ List.mem_of_mem_getLast? hc)
        · intro he
          exact hlast (he ▸ hc)

theorem stripLines_eq_self (l : List Char)
    (hb : ∀ c ∈ l, benignChar c = true)
    (hch : List.Chain' (fun a b => okPair a b = true) l)
    (hhd : l.head? ≠ some ' ') (hlast : l.getLast? ≠ some ' ') :
    stripLines l = l :=
  stripLines_eq_self_aux l.length l (Nat.le_refl _) hb hch hhd hlast

theorem stripLines_props_aux :
    ∀ (n : Nat) (l : List Char), l.length ≤ n →
      (∀ c ∈ l, benignChar c = true) →
      List.Chain' (fun a b => (!(isNBSpace a && isNBSpace b)) = true) l →
      (∀ c ∈ stripLines l, benignChar c = true) ∧
      List.Chain' (fun a b => okPair a b = true) (stripLines l) ∧
      (stripLines l).head? ≠ some ' ' ∧ (stripLines l).getLast? ≠ some ' ' := by
  intro n
  induction n with
  | zero =>
    intro l hlen _ _
    rw [List.length_eq_zero.mp (Nat.le_zero.mp hlen), stripLines_nil]
    exact ⟨by simp, List.chain'_nil, by simp, by simp⟩
  | succ n ih =>
    intro l hlen hb hch
    by_cases hnl : '\n' ∈ l
    · obtain ⟨A, R, hdecomp, hA⟩ := mem_split_first l hnl
      subst hdecomp
      obtain ⟨chA, chNR, _⟩ := List.chain'_append.mp hch
      have hlenR : R.length ≤ n := by
        rw [List.length_append, List.length_cons] at hlen
        omega
      have hbR : ∀ c ∈ R, benignChar c = true := fun c hc =>
        hb c (List.mem_append_right _ (List.mem_cons_of_mem _ hc))
      obtain ⟨ihb, ihch, ihhd, ihlast⟩ := ih R hlenR hbR (List.Chain'.tail chNR)
      have hsubA : ∀ c ∈ stripChars A, c ∈ A := fun c hc =>
        List.Sublist.subset (List.IsInfix.sublist (stripChars_infix_self A)) hc
      have hnlA : ∀ c ∈ stripChars A, c ≠ '\n' := fun c hc he =>
        hA (he ▸ hsubA c hc)
      have hchSA : List.Chain' (fun a b => okPair a b = true) (stripChars A) := by
        apply chain_okPair_of_noNBNB
        · intro hm
          exact hnlA '\n' hm rfl
        · exact List.Chain'.infix chA (stripChars_infix_self A)
      rw [stripLines_decomp A R hA]
      refine ⟨?_, ?_, ?_, ?_⟩
      · intro c hc
        rcases List.mem_append.mp hc with h1 | h1
        · exact hb c (List.mem_append_left _ (hsubA c h1))
        · rcases List.mem_cons.mp h1 with rfl | h1
          · decide
          · exact ihb c h1
      · rw [List.chain'_append]
        refine ⟨hchSA, ?_, ?_⟩
        · rw [List.chain'_cons']
          refine ⟨?_, ihch⟩
          intro y hy
          apply okPair_nl_left
          intro he
          exact ihhd (he ▸ hy)
        · intro x hx y hy
          have hy' : y = '\n' := by
            simp only [List.head?_cons, Option.mem_def, Option.some.injEq] at hy
            exact hy.symm
          subst hy'
          apply okPair_nl_right
          intro he
          have hws := stripChars_last_false A x hx
          rw [he] at hws
          exact absurd hws (by decide)
      · cases hSA : stripChars A with
        | nil =>
          rw [List.nil_append, List.head?_cons]
          intro heq
          exact absurd heq (by decide)
        | cons a as =>
          rw [List.cons_append, List.head?_cons]
          intro heq
          simp only [Option.some.injEq] at heq
          have hhead : (stripChars A).head? = some a := by rw [hSA]; rfl
          have hws := stripChars_head_false A a hhead
          rw [heq] at hws
          exact absurd hws (by decide)
      · cases hSR : stripLines R with
        | nil =>
          intro heq
          rw [List.getLast?_concat] at heq
          exact absurd heq (by decide)
        | cons s ss =>
          rw [List.getLast?_append, List.getLast?_cons_cons]
          intro heq
          cases hgl : (s :: ss).getLast? with
          | none =>
            have hsome := List.getLast?_isSome.mpr (show s :: ss ≠ [] by simp)
            rw [hgl] at hsome
            simp at hsome
          | some c =>
            rw [hgl] at heq
            have hcs : c = ' ' := Option.some.inj heq
            apply ihlast
            rw [hSR, hgl, hcs]
    · rw [stripLines_no_newline l hnl]
      have hsub : ∀ c ∈ stripChars l, c ∈ l := fun c hc =>
        List.Sublist.subset (List.IsInfix.sublist (stripChars_infix_self l)) hc
      refine ⟨fun c hc => hb c (hsub c hc), ?_, ?_, ?_⟩
      · apply chain_okPair_of_noNBNB
        · intro hm
          exact hnl (hsub '\n' hm)
        · exact List.Chain'.infix hch (stripChars_infix_self l)
      · intro heq
        have hws := stripChars_head_false l ' ' heq
        exact absurd hws (by decide)
      · intro heq
        have hws := stripChars_last_false l ' ' heq
        exact absurd hws (by decide)

theorem stripLines_props (l : List Char)
    (hb : ∀ c ∈ l, benignChar c = true)
    (hch : List.Chain' (fun a b => (!(isNBSpace a && isNBSpace b)) = true) l) :
    (∀ c ∈ stripLines l, benignChar c = true) ∧
    List.Chain' (fun a b => okPair a b = true) (stripLines l) ∧
    (stripLines l).head? ≠ some ' ' ∧ (stripLines l).getLast? ≠ some ' ' :=
  stripLines_props_aux l.length l (Nat.le_refl _) hb hch

theorem replaceTabs_eq_self (t : Nat) :
    ∀ (l : List Char), (∀ c ∈ l, c ≠ '\t') → replaceTabs t l = l := by
  intro l
  induction l with
  | nil => intro _; rfl
  | cons c rest ih =>
    intro h
    have hc : c ≠ '\t' := h c (List.mem_cons_self _ _)
    have htail : ∀ d ∈ rest, d ≠ '\t' := fun d hd => h d (List.mem_cons_of_mem _ hd)
    calc replaceTabs t (c :: rest)
        = (if c = '\t' then List.replicate t ' ' else [c]) ++ replaceTabs t rest := by
          simp [replaceTabs]
      _ = c :: rest := by
          rw [if_neg hc, ih htail]
          rfl

theorem wsStage_props (maxN tabs : Nat) (hmax : 1 ≤ maxN) (x : List Char) :
    (∀ c ∈ wsStage maxN tabs x, benignChar c = true) ∧
    List.Chain' (fun a b => okPair a b = true) (wsStage maxN tabs x) ∧
    noEdgeWs (wsStage maxN tabs x) := by
  have hws : wsStage maxN tabs x =
      stripChars (stripLines (collapseNlAux maxN
        (collapseSpaceRuns (replaceTabs tabs x)) 0)) := rfl
  rw [hws]
  have hb3 : ∀ c ∈ collapseNlAux maxN (collapseSpaceRuns (replaceTabs tabs x)) 0,
      benignChar c = true := by
    intro c hc
    rcases collapseNlAux_mem maxN (collapseSpaceRuns (replaceTabs tabs x)) 0 c hc with rfl | h
    · decide
    · exact collapseSpaceRuns_benign (replaceTabs tabs x) c h
  have hch3 := collapseNlAux_chain_noNBNB maxN hmax (collapseSpaceRuns (replaceTabs tabs x)) 0
    (collapseSpaceRuns_chain (replaceTabs tabs x))
  obtain ⟨hb4, hch4, _, _⟩ :=
    stripLines_props (collapseNlAux maxN (collapseSpaceRuns (replaceTabs tabs x)) 0) hb3 hch3
  refine ⟨?_, ?_, ?_⟩
  · intro c hc
    exact hb4 c (List.Sublist.subset (List.IsInfix.sublist (stripChars_infix_self _)) hc)
  · exact List.Chain'.infix hch4 (stripChars_infix_self _)
  · exact ⟨fun c hc => stripChars_head_false _ c hc, fun c hc => stripChars_last_false _ c hc⟩

theorem wsStage_second_pass (maxN tabs : Nat) (hmax : 1 ≤ maxN) (x : List Char) :
    wsStage maxN tabs (wsStage maxN tabs x) =
      collapseNewlineRuns maxN (wsStage maxN tabs x) := by
  obtain ⟨hb, hch, hEdge⟩ := wsStage_props maxN tabs hmax x
  set y := wsStage maxN tabs x with hy
  have step1 : replaceTabs tabs y = y := by
    apply replaceTabs_eq_self
    intro c hc he
    have hbc := hb c hc
    rw [he] at hbc
    exact absurd hbc (by decide)
  have step2 : collapseSpaceRuns y = y := collapseSpaceRuns_eq_self y hb hch
  have hbz : ∀ c ∈ collapseNlAux maxN y 0, benignChar c = true := by
    intro c hc
    rcases collapseNlAux_mem maxN y 0 c hc with rfl | h
    · decide
    · exact hb c h
  have hchz : List.Chain' (fun a b => okPair a b = true) (collapseNlAux maxN y 0) :=
    collapseNlAux_chain_okPair maxN hmax y 0 hch (fun h => absurd rfl h)
  have hhz : (collapseNlAux maxN y 0).head? = y.head? := collapseNlAux_head_zero maxN hmax y
  have hheadz : ∀ c, (collapseNlAux maxN y 0).head? = some c → pyIsSpace c = false := by
    intro c hc
    rw [hhz] at hc
    exact hEdge.1 c hc
  have hlastz : ∀ c, (collapseNlAux maxN y 0).getLast? = some c → pyIsSpace c = false := by
    intro c hc
    cases hyv : y.getLast? with
    | none =>
      have hynil : y = [] := by
        cases hyy : y with
        | nil => rfl
        | cons a as =>
          rw [hyy] at hyv
          have hsome := List.getLast?_isSome.mpr (show a :: as ≠ [] by simp)
          rw [hyv] at hsome
          simp at hsome
      rw [hynil] at hc
      rw [show collapseNlAux maxN [] 0 = ([] : List Char) from rfl] at hc
      simp at hc
    | some d =>
      have hd := hEdge.2 d hyv
      have hdn : d ≠ '\n' := by
        intro he
        rw [he] at hd
        exact absurd hd (by decide)
      have hgl := collapseNlAux_getLast maxN y 0 d hyv hdn
      rw [hgl] at hc
      exact (Option.some.inj hc) ▸ hd
  have hzhd : (collapseNlAux maxN y 0).head? ≠ some ' ' := by
    intro heq
    exact absurd (hheadz ' ' heq) (by decide)
  have hzlast : (collapseNlAux maxN y 0).getLast? ≠ some ' ' := by
    intro heq
    exact absurd (hlastz ' ' heq) (by decide)
  calc wsStage maxN tabs y
      = stripChars (stripLines (collapseNlAux maxN y 0)) := by
        show stripChars (stripLines (collapseNlAux maxN
          (collapseSpaceRuns (replaceTabs tabs y)) 0)) = _
        rw [step1, step2]
    _ = stripChars (collapseNlAux maxN y 0) := by
        rw [stripLines_eq_self (collapseNlAux maxN y 0) hbz hchz hzhd hzlast]
    _ = collapseNlAux maxN y 0 := stripChars_eq_self _ hheadz hlastz
    _ = collapseNewlineRuns maxN y := rfl

/-- C6 (counterexample): the whitespace/trim stage of normalization is not
idempotent. With the default limits (`max_consecutive_newlines = 2`, tab width
4), one pass over `"a\n \n \nb"` keeps its three separate newlines but strips
the space-only lines, producing `"a\n\n\nb"`; a second pass then collapses the
new three-newline run to two, yielding `"a\n\nb"`. -/
theorem C6_counterexample :
    wsStage 2 4 (wsStage 2 4 ("a\n \n \nb".toList)) ≠
      wsStage 2 4 ("a\n \n \nb".toList) := by decide

/-- C6 (amended): for `max_consecutive_newlines ≥ 1`, a second run of the
whitespace/trim stage (`normalize_whitespace` followed by `strip`) is exactly
one more newline-run collapse of the first run's output — per-line stripping
can merge newline runs past the limit, and that is the only defect a second
pass repairs. Consequently idempotence on a given input holds precisely when
the first pass's output has no newline run longer than the limit. -/
theorem C6_amended (maxN tabs : Nat) (hmax : 1 ≤ maxN) (x : List Char) :
    wsStage maxN tabs (wsStage maxN tabs x) =
      collapseNewlineRuns maxN (wsStage maxN tabs x) ∧
    (wsStage maxN tabs (wsStage maxN tabs x) = wsStage maxN tabs x ↔
      collapseNewlineRuns maxN (wsStage maxN tabs x) = wsStage maxN tabs x) := by
  have h := wsStage_second_pass maxN tabs hmax x
  exact ⟨h, by rw [h]⟩

/-- Witness for C6: the amended statement instantiated at
`max_consecutive_newlines = 2`, tab width 4, input `"ab\ncd"`. -/
theorem C6_witness :
    wsStage 2 4 (wsStage 2 4 ("ab\ncd".toList)) =
      collapseNewlineRuns 2 (wsStage 2 4 ("ab\ncd".toList)) ∧
    (wsStage 2 4 (wsStage 2 4 ("ab\ncd".toList)) = wsStage 2 4 ("ab\ncd".toList) ↔
      collapseNewlineRuns 2 (wsStage 2 4 ("ab\ncd".toList)) =
        wsStage 2 4 ("ab\ncd".toList)) :=
  C6_amended 2 4 (by decide) ("ab\ncd".toList)
